import Mathlib

/-!
# Verification of the FAQ chatbot matching core

A shallow embedding of the repository's matching core:

* `src/services/preprocessor.py` — `TextPreprocessor` (`preprocess`,
  `_clean_text`, `_tokenize`, `_remove_stop_words`, `_filter_by_length`,
  `_lemmatize`);
* `src/services/matcher.py` — `QuestionMatcher` (`_build_corpus`, `match`,
  `match_with_alternatives`, `_get_all_matches`, `get_matches_by_category`);
* `src/services/preprocessing_pipeline.py` — `PreprocessingPipeline.process`;
* `src/config.py` — `MatcherConfig`, `PreprocessorConfig`;
* `src/models/faq.py` — `FAQ`, `MatchResult`.

Strings are modelled as `List Char` at the core, with `String` wrappers.
External library behaviour (NLTK's WordNet lemmatizer and stop-word data,
scikit-learn's TF-IDF vectorizer and cosine similarity) is not code of this
repository; it is represented by parameters (a lemmatizer function, a
stop-word list, a list of per-row similarity scores) or, for the vectorizer's
fit step, by a model of its documented tokenization (word runs of length ≥ 2,
unigrams + bigrams).  Similarity scores are modelled as rationals.
-/

/-! ## Character classes

`isSpaceB` models Python's whitespace set used by `str.split()` / `str.strip()`
(ASCII fragment).  `isPunct` is exactly Python's `string.punctuation`
(ASCII codes 33–47, 58–64, 91–96, 123–126).  `toLowerC` models `str.lower`
on ASCII letters. -/

def isSpaceB (c : Char) : Bool :=
  c = ' ' || c = '\t' || c = '\n' || c = '\r' || c = '\x0b' || c = '\x0c'

def isPunct (c : Char) : Bool :=
  decide (33 ≤ c.toNat ∧ c.toNat ≤ 47) || decide (58 ≤ c.toNat ∧ c.toNat ≤ 64) ||
  decide (91 ≤ c.toNat ∧ c.toNat ≤ 96) || decide (123 ≤ c.toNat ∧ c.toNat ≤ 126)

def toLowerC (c : Char) : Char :=
  if 65 ≤ c.toNat ∧ c.toNat ≤ 90 then Char.ofNat (c.toNat + 32) else c

def notSpace (c : Char) : Bool := !isSpaceB c

/-! ## Splitting into maximal runs

`splitBy keep l` returns the maximal runs of characters satisfying `keep`,
in order; with `keep = notSpace` this is Python's `str.split()`.  The
recursion consumes a non-structural suffix (`dropWhile`), so it is written
with a fuel argument equal to the input length. -/

def splitByGo (keep : Char → Bool) : Nat → List Char → List (List Char)
  | _, [] => []
  | 0, _ => []
  | fuel + 1, c :: cs =>
    if keep c then
      (c :: cs.takeWhile keep) :: splitByGo keep fuel (cs.dropWhile keep)
    else
      splitByGo keep fuel cs

def splitBy (keep : Char → Bool) (l : List Char) : List (List Char) :=
  splitByGo keep l.length l

/-- Python's single-space join of a list of words, on `List Char`. -/
def joinWords : List (List Char) → List Char
  | [] => []
  | [w] => w
  | w :: ws => w ++ ' ' :: joinWords ws

/-! ## URL stripping

Models `re.sub(r'https?://\S+|www\.\S+', '', text)`: a leftmost,
non-overlapping scan; at each position the engine matches `http://` or
`https://` or `www.` followed by a non-empty greedy run of non-whitespace. -/

def dropPrefixQ : List Char → List Char → Option (List Char)
  | [], l => some l
  | _ :: _, [] => none
  | p :: ps, c :: cs => if c = p then dropPrefixQ ps cs else none

def grabRun : List Char → Option (List Char)
  | [] => none
  | c :: cs => if isSpaceB c then none else some (cs.dropWhile notSpace)

def tryUrl (l : List Char) : Option (List Char) :=
  match dropPrefixQ "https://".toList l with
  | some r => grabRun r
  | none =>
    match dropPrefixQ "http://".toList l with
    | some r => grabRun r
    | none =>
      match dropPrefixQ "www.".toList l with
      | some r => grabRun r
      | none => none

def stripUrlsGo : Nat → List Char → List Char
  | _, [] => []
  | 0, l => l
  | fuel + 1, c :: cs =>
    match tryUrl (c :: cs) with
    | some rest => stripUrlsGo fuel rest
    | none => c :: stripUrlsGo fuel cs

def stripUrls (l : List Char) : List Char := stripUrlsGo l.length l

/-! ## Email stripping

Models `re.sub(r'\S+@\S+', '', text)`.  A match never crosses whitespace and
(by greediness of the trailing `\S+`) always extends to the end of a
non-whitespace run; the leftmost match start inside a run is the run's start,
and a run matches exactly when it contains `'@'` at an interior position
(not first, not last).  So the substitution deletes exactly those maximal
non-whitespace runs whose interior contains `'@'`. -/

def stripEmailsGo : Nat → List Char → List Char
  | _, [] => []
  | 0, l => l
  | fuel + 1, c :: cs =>
    if isSpaceB c then c :: stripEmailsGo fuel cs
    else
      (if (cs.takeWhile notSpace).dropLast.contains '@' then []
       else c :: cs.takeWhile notSpace) ++ stripEmailsGo fuel (cs.dropWhile notSpace)

def stripEmails (l : List Char) : List Char := stripEmailsGo l.length l

/-! ## Preprocessor configuration and state

`PreprocessorConfig` mirrors `src/config.py` (defaults: `min_word_length = 2`,
`use_lemmatization = True`, `remove_numbers = False`, no custom stop words).
`TextPreprocessor` mirrors the constructed service: its `stop_words` field is
the set `self._stop_words` (NLTK data or the hardcoded fallback, plus custom
words — external data, hence a field), and `lemm` is the external WordNet
lemmatizer `self._lemmatizer.lemmatize`. -/

structure PreprocessorConfig where
  min_word_length : Nat
  use_lemmatization : Bool
  remove_numbers : Bool
  custom_stop_words : List String

def defaultPreCfg : PreprocessorConfig := ⟨2, true, false, []⟩

structure TextPreprocessor where
  config : PreprocessorConfig
  stop_words : List String
  lemm : List Char → List Char

/-- The hardcoded fallback stop-word list of `TextPreprocessor._load_stop_words`. -/
def fallbackStopWords : List String :=
  ["i", "me", "my", "myself", "we", "our", "ours", "ourselves",
   "you", "your", "yours", "yourself", "yourselves", "he", "him",
   "his", "himself", "she", "her", "hers", "herself", "it", "its",
   "itself", "they", "them", "their", "theirs", "themselves",
   "what", "which", "who", "whom", "this", "that", "these", "those",
   "am", "is", "are", "was", "were", "be", "been", "being",
   "have", "has", "had", "having", "do", "does", "did", "doing",
   "a", "an", "the", "and", "but", "if", "or", "because", "as",
   "until", "while", "of", "at", "by", "for", "with", "about",
   "against", "between", "into", "through", "during", "before",
   "after", "above", "below", "to", "from", "up", "down", "in",
   "out", "on", "off", "over", "under", "again", "further",
   "then", "once"]

/-- Models `_load_stop_words`: the base set plus the lowercased custom stop words. -/
def loadStopWords (base : List String) (cfg : PreprocessorConfig) : List String :=
  base ++ cfg.custom_stop_words.map (fun s => String.mk (s.toList.map toLowerC))

/-! ## `_clean_text`

Lowercase, strip URLs, strip emails, optionally remove digits, strip
punctuation, collapse whitespace (`' '.join(text.split())`). -/

/-- The character-level part of `_clean_text` (everything before the final
whitespace collapse). -/
def cleanCore (cfg : PreprocessorConfig) (l : List Char) : List Char :=
  let l1 := l.map toLowerC
  let l2 := stripUrls l1
  let l3 := stripEmails l2
  let l4 := if cfg.remove_numbers then l3.filter (fun c => !c.isDigit) else l3
  l4.filter (fun c => !isPunct c)

/-- Models `TextPreprocessor._clean_text`. -/
def cleanList (cfg : PreprocessorConfig) (l : List Char) : List Char :=
  joinWords (splitBy notSpace (cleanCore cfg l))

/-! ## `preprocess`

The full pipeline: empty check, clean, tokenize (whitespace split — the
NLTK `word_tokenize` call agrees with the split on cleaned, punctuation-free
text, and the code's documented fallback is exactly `text.split()`), stop-word
removal, length filter, optional lemmatization, and re-joining. -/

/-- Models `_tokenize` applied to the cleaned text. -/
def rawTokens (P : TextPreprocessor) (l : List Char) : List (List Char) :=
  splitBy notSpace (cleanList P.config l)

/-- Models `_remove_stop_words` then `_filter_by_length`. -/
def keptTokens (P : TextPreprocessor) (l : List Char) : List (List Char) :=
  ((rawTokens P l).filter (fun t => !(P.stop_words.contains (String.mk t)))).filter
    (fun t => decide (P.config.min_word_length ≤ t.length))

/-- Tokens after the optional `_lemmatize` step. -/
def finalTokens (P : TextPreprocessor) (l : List Char) : List (List Char) :=
  if P.config.use_lemmatization then (keptTokens P l).map P.lemm else keptTokens P l

/-- Models `TextPreprocessor.preprocess` on `List Char`. -/
def preprocessL (P : TextPreprocessor) (l : List Char) : List Char :=
  if l.all isSpaceB then [] else joinWords (finalTokens P l)

/-- Models `TextPreprocessor.preprocess`. -/
def preprocess (P : TextPreprocessor) (s : String) : String :=
  String.mk (preprocessL P s.toList)

/-! ## Data model (`src/models/faq.py`)

`FAQ.category` is modelled as the category's string value (the code compares
`faq.category.value == category`).  `MatchResult` carries an extra ghost field
`idx`, the corpus row index produced by `enumerate(similarities)` in
`_get_all_matches`; it records which corpus row the result came from and is
needed to state the stable tie-break. -/

structure FAQ where
  id : String
  question : String
  answer : String
  category : String
  keywords : List String
  alternate_questions : List String

deriving DecidableEq

/-- Models `FAQ.all_questions`: the main question followed by the alternates. -/
def allQuestions (f : FAQ) : List String :=
  f.question :: f.alternate_questions

structure MatchResult where
  idx : Nat
  faq : FAQ
  similarity_score : ℚ
  matched_question : String

deriving DecidableEq

/-- Models `MatcherConfig` from `src/config.py`
(defaults 0.3, 3, 0.5, 1000, unigrams+bigrams). -/
structure MatcherConfig where
  similarity_threshold : ℚ
  max_suggestions : Nat
  low_confidence_threshold : ℚ
  max_features : Nat

def defaultMatcherConfig : MatcherConfig := ⟨mkRat 3 10, 3, mkRat 1 2, 1000⟩

/-! ## `_get_all_matches`

The similarity scores produced by the external
`cosine_similarity(query_vector, corpus_vectors)[0]` call are a parameter
`sims`, one rational per corpus row.  A corpus row is an
`(owning FAQ, original question)` pair, mirroring the parallel arrays
`corpus_faqs` / `corpus_original_questions`. -/

/-- The threshold-filter loop of `_get_all_matches`
(`for idx, similarity in enumerate(similarities): if similarity >= threshold: append`). -/
def mkMatches (th : ℚ) : Nat → List (FAQ × String) → List ℚ → List MatchResult
  | _, [], _ => []
  | _, _ :: _, [] => []
  | i, r :: rs, s :: ss =>
    (if th ≤ s then [⟨i, r.1, s, r.2⟩] else []) ++ mkMatches th (i + 1) rs ss

/-- One insertion step of a stable descending sort on `similarity_score`:
the new element (which precedes the list's elements in the original order)
is placed before the first element whose score is not larger. -/
def insertDesc (x : MatchResult) : List MatchResult → List MatchResult
  | [] => [x]
  | y :: ys =>
    if x.similarity_score < y.similarity_score then y :: insertDesc x ys
    else x :: y :: ys

/-- Models `matches.sort(key=lambda x: x.similarity_score, reverse=True)` — Python's
sort is stable, so this is the unique stable descending reordering; insertion
from the right realizes it. -/
def sortDesc : List MatchResult → List MatchResult
  | [] => []
  | x :: xs => insertDesc x (sortDesc xs)

/-- Models `QuestionMatcher._get_all_matches`, given the per-row similarity scores. -/
def getAllMatches (rows : List (FAQ × String)) (sims : List ℚ) (th : ℚ) : List MatchResult :=
  sortDesc (mkMatches th 0 rows sims)

/-! ## `match`, `match_with_alternatives`, `get_matches_by_category`

The vectorization of the query can raise (`MatcherError`) only inside
`_get_all_matches`; the similarity computation is therefore passed as
`Except String (List ℚ)` and consulted only after the empty-query checks,
exactly as in the source. -/

/-- The alternatives loop of `match_with_alternatives`: walk the remaining
matches, skip entries whose FAQ id was already seen, and stop once the
alternatives list length reaches `max_suggestions` (checked after
appending).  `n` is the current length of the alternatives list. -/
def collectAlts (maxS : Nat) : List String → Nat → List MatchResult → List MatchResult
  | _, _, [] => []
  | seen, n, m :: ms =>
    if m.faq.id ∈ seen then collectAlts maxS seen n ms
    else if maxS ≤ n + 1 then [m]
    else m :: collectAlts maxS (m.faq.id :: seen) (n + 1) ms

/-- The part of `match_with_alternatives` after query normalization:
dedup by FAQ id with the best match's id pre-seen, cap the alternatives. -/
def matchAltsCore (rows : List (FAQ × String)) (sims : List ℚ) (cfg : MatcherConfig) :
    Option MatchResult × List MatchResult :=
  match getAllMatches rows sims cfg.similarity_threshold with
  | [] => (none, [])
  | best :: rest => (some best, collectAlts cfg.max_suggestions [best.faq.id] 0 rest)

/-- Models `QuestionMatcher.match` (named `matchQuery`; `match` is a Lean keyword). -/
def matchQuery (P : TextPreprocessor) (rows : List (FAQ × String))
    (simsE : Except String (List ℚ)) (cfg : MatcherConfig) (q : String) :
    Except String (Option MatchResult) :=
  if q.toList.all isSpaceB then .ok none
  else if preprocess P q = "" then .ok none
  else do
    let sims ← simsE
    .ok (getAllMatches rows sims cfg.similarity_threshold).head?

/-- Models `QuestionMatcher.match_with_alternatives`. -/
def matchWithAlternatives (P : TextPreprocessor) (rows : List (FAQ × String))
    (simsE : Except String (List ℚ)) (cfg : MatcherConfig) (q : String) :
    Except String (Option MatchResult × List MatchResult) :=
  if q.toList.all isSpaceB then .ok (none, [])
  else if preprocess P q = "" then .ok (none, [])
  else do
    let sims ← simsE
    .ok (matchAltsCore rows sims cfg)

/-- Models `QuestionMatcher.get_matches_by_category` (no dedup, post-hoc category
filter; note there is no raw-emptiness check here, only the preprocessed
check). -/
def getMatchesByCategory (P : TextPreprocessor) (rows : List (FAQ × String))
    (simsE : Except String (List ℚ)) (cfg : MatcherConfig) (q : String) (cat : String) :
    Except String (List MatchResult) :=
  if preprocess P q = "" then .ok []
  else do
    let sims ← simsE
    .ok (((getAllMatches rows sims cfg.similarity_threshold)).filter
      (fun m => decide (m.faq.category = cat)))

/-! ## `_build_corpus`

The corpus is flattened from `faq.all_questions`; every row is preprocessed.
The external `TfidfVectorizer.fit_transform` is modelled by its documented
analysis step: lowercase, extract word-character runs of length ≥ 2
(`token_pattern=r"(?u)\b\w\w+\b"`), form unigrams and adjacent bigrams,
collect the distinct grams as the vocabulary, and — when the vocabulary
exceeds `max_features` — keep the most frequent grams.  `fit_transform`
raises exactly when this vocabulary is empty, which `_build_corpus` converts
to a `MatcherError`; errors are modelled with `Except String`. -/

def wordChar (c : Char) : Bool := c.isAlphanum || c = '_'

/-- The vectorizer's tokenizer: maximal word-character runs of length ≥ 2 of
the lowercased text. -/
def sklearnTokens (s : String) : List String :=
  ((splitBy wordChar (s.toList.map toLowerC)).filter (fun w => decide (2 ≤ w.length))).map
    String.mk

def bigrams : List String → List String
  | a :: b :: rest => (a ++ " " ++ b) :: bigrams (b :: rest)
  | _ => []

def docGrams (s : String) : List String :=
  sklearnTokens s ++ bigrams (sklearnTokens s)

def insertByCount (g : List String) (x : String) : List String → List String
  | [] => [x]
  | y :: ys => if g.count x < g.count y then y :: insertByCount g x ys else x :: y :: ys

def sortByCount (g : List String) : List String → List String
  | [] => []
  | x :: xs => insertByCount g x (sortByCount g xs)

/-- The fitted vocabulary: distinct unigrams+bigrams, restricted to the
`max_features` most frequent ones when larger. -/
def fitVocabulary (maxF : Nat) (docs : List String) : List String :=
  let g := docs.flatMap docGrams
  let d := g.dedup
  if d.length ≤ maxF then d else (sortByCount g d).take maxF

/-- The built state of `QuestionMatcher` after `_build_corpus`:
`rows` zips `corpus_faqs` with `corpus_original_questions`;
`corpus_questions` are the preprocessed rows; `vocabulary` is the fitted
vocabulary of the vectorizer. -/
structure Corpus where
  rows : List (FAQ × String)
  corpus_questions : List String
  vocabulary : List String

deriving DecidableEq

/-- The row-flattening loop of `_build_corpus`. -/
def corpusRows (faqs : List FAQ) : List (FAQ × String) :=
  faqs.flatMap (fun f => (allQuestions f).map (fun q => (f, q)))

/-- Models `QuestionMatcher._build_corpus` (with the constructor's `MatcherError`
cases as `Except.error`). -/
def buildCorpus (P : TextPreprocessor) (faqs : List FAQ) (maxF : Nat) :
    Except String Corpus :=
  let rows := corpusRows faqs
  let qs := rows.map (fun r => preprocess P r.2)
  if qs.isEmpty then .error "No questions found in FAQ database"
  else
    let vocab := fitVocabulary maxF qs
    if vocab.isEmpty then .error "Failed to vectorize FAQ corpus: empty vocabulary"
    else .ok ⟨rows, qs, vocab⟩

/-! ## `PreprocessingPipeline.process`

A step's function may raise; `process` runs the enabled steps in order,
and on an exception keeps the pre-failure text and records the failure
(the source logs a warning naming the step), then continues. -/

structure PipelineStep where
  name : String
  f : String → Except String String
  enabled : Bool

/-- One iteration of the `for step in self.steps` loop; the second component
accumulates the recorded failures `(step name, error)`. -/
def runStep (acc : String × List (String × String)) (s : PipelineStep) :
    String × List (String × String) :=
  if s.enabled then
    match s.f acc.1 with
    | .ok r => (r, acc.2)
    | .error e => (acc.1, acc.2 ++ [(s.name, e)])
  else acc

/-- Models `PreprocessingPipeline.process`: the final text plus the recorded
failures. -/
def process (steps : List PipelineStep) (text : String) :
    String × List (String × String) :=
  steps.foldl runStep (text, [])

/-- A step with recovery applied: the step's result, or the unchanged input
text if the step raised. -/
def recoverStep (s : PipelineStep) (t : String) : String :=
  match s.f t with
  | .ok r => r
  | .error _ => t

/-! ## Idempotence machinery for `preprocess`

`plainChar` describes the characters that survive `_clean_text` unchanged:
non-whitespace, non-punctuation, lowercase-stable, and (when number removal
is on) non-digit.  `GoodLemma` describes a lemmatizer output in the steady
state the spec's idempotence property presupposes: a nonempty plain token,
not a stop word, at least the minimum length, and itself lemma-fixed. -/

def plainChar (cfg : PreprocessorConfig) (c : Char) : Prop :=
  isSpaceB c = false ∧ isPunct c = false ∧ toLowerC c = c ∧
    (cfg.remove_numbers = true → c.isDigit = false)

instance plainChar_dec (cfg : PreprocessorConfig) (c : Char) : Decidable (plainChar cfg c) := by
  unfold plainChar
  infer_instance

def GoodLemma (P : TextPreprocessor) (w : List Char) : Prop :=
  w ≠ [] ∧ (∀ c ∈ w, plainChar P.config c) ∧
    P.stop_words.contains (String.mk w) = false ∧
    P.config.min_word_length ≤ w.length ∧ P.lemm w = w

/-- A concrete preprocessor exhibiting the WordNet lemmatizer's actual
behaviour on the word "downs" (its noun lemma is the stop word "down"),
with the source's fallback stop-word list and default configuration. -/
def Pdowns : TextPreprocessor :=
  ⟨defaultPreCfg, fallbackStopWords,
   fun w => if w = "downs".toList then "down".toList else w⟩

/-- A concrete preprocessor whose lemmatizer satisfies the steady-state
hypothesis (it maps every token to the plain non-stop-word token "aa"). -/
def Psteady : TextPreprocessor :=
  ⟨defaultPreCfg, fallbackStopWords, fun _ => "aa".toList⟩

/-! ## Substring membership (for stating the stripping property) -/

def startsWithL : List Char → List Char → Bool
  | [], _ => true
  | _ :: _, [] => false
  | c :: cs, d :: ds => c = d && startsWithL cs ds

/-- Holds when `needle` occurs as a contiguous substring of the second list. -/
def containsSub (needle : List Char) : List Char → Bool
  | [] => needle.isEmpty
  | d :: ds => startsWithL needle (d :: ds) || containsSub needle ds

/-! ## Ordering of `_get_all_matches` results -/

/-- The strict ranking order of the sorted candidate list: higher similarity
first, and among equal similarities the smaller (earlier) corpus row index
first — the stable tie-break. -/
def rankedBefore (a b : MatchResult) : Prop :=
  b.similarity_score < a.similarity_score ∨
    (a.similarity_score = b.similarity_score ∧ a.idx < b.idx)

/-- Weak descending order on scores. -/
def wdesc (a b : MatchResult) : Prop :=
  b.similarity_score ≤ a.similarity_score

deriving instance DecidableEq for Except

/-- The identity-lemmatizer preprocessor with the source's fallback stop
words and default configuration, used for concrete runs. -/
def Pident : TextPreprocessor := ⟨defaultPreCfg, fallbackStopWords, id⟩

def faqGenA : FAQ := ⟨"general_a", "first question", "answer a", "general", [], []⟩

def faqGenB : FAQ := ⟨"general_b", "second question", "answer b", "general", [], []⟩

/-- Two corpus rows owned by the same FAQ (a question and its paraphrase). -/
def demoRowsSame : List (FAQ × String) :=
  [(faqGenA, "first question"), (faqGenA, "first question again")]

/-- Two corpus rows owned by distinct FAQs. -/
def demoRowsDistinct : List (FAQ × String) :=
  [(faqGenA, "first question"), (faqGenB, "second question")]

/-- A matcher configuration with `max_suggestions = 0`. -/
def cfgZeroSuggestions : MatcherConfig := ⟨mkRat 3 10, 0, mkRat 1 2, 1000⟩

/-- The FAQ used for concrete corpus-construction runs. -/
def faqHello : FAQ := ⟨"general_001", "hello world", "hi there", "general", [], []⟩

/-- The FAQ whose only question normalizes to the empty string. -/
def faqBang : FAQ := ⟨"bang", "!!", "an answer", "general", [], []⟩

/-- The corpus built from the one-entry `faqHello` catalog. -/
def sampleCorpus : Corpus :=
  ⟨[(faqHello, "hello world")], ["hello world"], ["hello", "world", "hello world"]⟩

/-- A pipeline step that always raises. -/
def boomStep : PipelineStep := ⟨"boom", fun _ => .error "E", true⟩

/-- A pipeline step that returns its input unchanged. -/
def identStep : PipelineStep := ⟨"identity", fun t => .ok t, true⟩

/-! ### Fuel elimination lemmas -/

theorem dropPrefixQ_length :
    ∀ (p l r : List Char), dropPrefixQ p l = some r → r.length + p.length = l.length := by
  intro p
  induction p with
  | nil => intro l r h; simp [dropPrefixQ] at h; simp [h]
  | cons a ps ih =>
    intro l r h
    cases l with
    | nil => simp [dropPrefixQ] at h
    | cons c cs =>
      simp only [dropPrefixQ] at h
      by_cases hc : c = a
      · simp [hc] at h
        have := ih cs r h
        simp [List.length_cons]
        omega
      · simp [hc] at h

theorem grabRun_length :
    ∀ (l r : List Char), grabRun l = some r → r.length < l.length := by
  intro l r h
  cases l with
  | nil => simp [grabRun] at h
  | cons c cs =>
    simp only [grabRun] at h
    by_cases hc : isSpaceB c
    · simp [hc] at h
    · simp [hc] at h
      subst h
      have := (@List.dropWhile_sublist Char cs notSpace).length_le
      simp [List.length_cons]
      omega

theorem tryUrl_length :
    ∀ (l r : List Char), tryUrl l = some r → r.length < l.length := by
  intro l r h
  unfold tryUrl at h
  rcases h1 : dropPrefixQ "https://".toList l with _ | r1
  · rcases h2 : dropPrefixQ "http://".toList l with _ | r2
    · rcases h3 : dropPrefixQ "www.".toList l with _ | r3
      · rw [h1, h2, h3] at h; simp at h
      · rw [h1, h2, h3] at h
        have hl := dropPrefixQ_length _ _ _ h3
        have := grabRun_length r3 r h
        simp at hl
        omega
    · rw [h1, h2] at h
      have hl := dropPrefixQ_length _ _ _ h2
      have := grabRun_length r2 r h
      simp at hl
      omega
  · rw [h1] at h
    have hl := dropPrefixQ_length _ _ _ h1
    have := grabRun_length r1 r h
    simp at hl
    omega

theorem splitByGo_eq (keep : Char → Bool) :
    ∀ (n : Nat) (l : List Char), l.length ≤ n →
      splitByGo keep n l = splitByGo keep l.length l := by
  intro n
  induction n using Nat.strong_induction_on with
  | _ n ih =>
    intro l hl
    match l with
    | [] => cases n <;> rfl
    | c :: cs =>
      obtain ⟨m, rfl⟩ : ∃ m, n = m + 1 := by
        cases n with
        | zero => simp at hl
        | succ k => exact ⟨k, rfl⟩
      have hcs : cs.length ≤ m := by simp at hl; omega
      have hdw : (cs.dropWhile keep).length ≤ cs.length := (List.dropWhile_sublist keep).length_le
      cases hk : keep c with
      | true =>
        simp only [List.length_cons, splitByGo, hk, if_true]
        rw [ih m (by omega) _ (by omega), ih cs.length (by omega) _ (by omega)]
      | false =>
        simp only [List.length_cons, splitByGo, hk, Bool.false_eq_true, if_false]
        rw [ih m (by omega) _ hcs, ih cs.length (by omega) _ (le_refl _)]

theorem splitBy_nil (keep : Char → Bool) : splitBy keep [] = [] := rfl

theorem splitBy_cons_pos {keep : Char → Bool} {c : Char} {cs : List Char} (h : keep c = true) :
    splitBy keep (c :: cs) =
      (c :: cs.takeWhile keep) :: splitBy keep (cs.dropWhile keep) := by
  show splitByGo keep (cs.length + 1) (c :: cs) = _
  simp only [splitByGo, h, if_true]
  rw [splitByGo_eq keep cs.length _ (List.dropWhile_sublist keep).length_le]
  rfl

theorem splitBy_cons_neg {keep : Char → Bool} {c : Char} {cs : List Char} (h : keep c = false) :
    splitBy keep (c :: cs) = splitBy keep cs := by
  show splitByGo keep (cs.length + 1) (c :: cs) = _
  simp only [splitByGo, h, Bool.false_eq_true, if_false]
  rfl

theorem stripUrlsGo_eq :
    ∀ (n : Nat) (l : List Char), l.length ≤ n → stripUrlsGo n l = stripUrlsGo l.length l := by
  intro n
  induction n using Nat.strong_induction_on with
  | _ n ih =>
    intro l hl
    match l with
    | [] => cases n <;> rfl
    | c :: cs =>
      obtain ⟨m, rfl⟩ : ∃ m, n = m + 1 := by
        cases n with
        | zero => simp at hl
        | succ k => exact ⟨k, rfl⟩
      have hcs : cs.length ≤ m := by simp at hl; omega
      rcases hu : tryUrl (c :: cs) with _ | rest
      · simp only [List.length_cons, stripUrlsGo, hu]
        rw [ih m (by omega) _ hcs, ih cs.length (by omega) _ (le_refl _)]
      · have hr : rest.length < cs.length + 1 := by
          have := tryUrl_length _ _ hu
          simpa using this
        simp only [List.length_cons, stripUrlsGo, hu]
        rw [ih m (by omega) _ (by omega), ih cs.length (by omega) _ (by omega)]

theorem stripUrls_nil : stripUrls [] = [] := rfl

theorem stripUrls_cons_some {c : Char} {cs rest : List Char}
    (h : tryUrl (c :: cs) = some rest) : stripUrls (c :: cs) = stripUrls rest := by
  show stripUrlsGo (cs.length + 1) (c :: cs) = _
  simp only [stripUrlsGo, h]
  exact stripUrlsGo_eq cs.length rest (by have := tryUrl_length _ _ h; simp at this; omega)

theorem stripUrls_cons_none {c : Char} {cs : List Char}
    (h : tryUrl (c :: cs) = none) : stripUrls (c :: cs) = c :: stripUrls cs := by
  show stripUrlsGo (cs.length + 1) (c :: cs) = _
  simp only [stripUrlsGo, h]
  rfl

theorem stripEmailsGo_eq :
    ∀ (n : Nat) (l : List Char), l.length ≤ n → stripEmailsGo n l = stripEmailsGo l.length l := by
  intro n
  induction n using Nat.strong_induction_on with
  | _ n ih =>
    intro l hl
    match l with
    | [] => cases n <;> rfl
    | c :: cs =>
      obtain ⟨m, rfl⟩ : ∃ m, n = m + 1 := by
        cases n with
        | zero => simp at hl
        | succ k => exact ⟨k, rfl⟩
      have hcs : cs.length ≤ m := by simp at hl; omega
      have hdw : (cs.dropWhile notSpace).length ≤ cs.length :=
        (List.dropWhile_sublist notSpace).length_le
      cases hsp : isSpaceB c with
      | true =>
        simp only [List.length_cons, stripEmailsGo, hsp, if_true]
        rw [ih m (by omega) _ hcs, ih cs.length (by omega) _ (le_refl _)]
      | false =>
        simp only [List.length_cons, stripEmailsGo, hsp, Bool.false_eq_true, if_false]
        rw [ih m (by omega) _ (by omega), ih cs.length (by omega) _ (by omega)]

theorem stripEmails_nil : stripEmails [] = [] := rfl

theorem stripEmails_cons_space {c : Char} {cs : List Char} (h : isSpaceB c = true) :
    stripEmails (c :: cs) = c :: stripEmails cs := by
  show stripEmailsGo (cs.length + 1) (c :: cs) = _
  simp only [stripEmailsGo, h, if_true]
  rfl

theorem stripEmails_cons_word {c : Char} {cs : List Char} (h : isSpaceB c = false) :
    stripEmails (c :: cs) =
      (if (cs.takeWhile notSpace).dropLast.contains '@' then []
       else c :: cs.takeWhile notSpace) ++ stripEmails (cs.dropWhile notSpace) := by
  show stripEmailsGo (cs.length + 1) (c :: cs) = _
  simp only [stripEmailsGo, h, Bool.false_eq_true, if_false]
  rw [stripEmailsGo_eq cs.length _ (List.dropWhile_sublist notSpace).length_le]
  rfl

/-! ## Generic helper lemmas -/

theorem takeWhile_all {p : Char → Bool} :
    ∀ {l : List Char}, (∀ c ∈ l, p c = true) → l.takeWhile p = l :=
  fun h => List.takeWhile_eq_self_iff.mpr h

theorem dropWhile_all {p : Char → Bool} :
    ∀ {l : List Char}, (∀ c ∈ l, p c = true) → l.dropWhile p = [] :=
  fun h => List.dropWhile_eq_nil_iff.mpr h

theorem takeWhile_append_all {p : Char → Bool} :
    ∀ (l₁ l₂ : List Char), (∀ c ∈ l₁, p c = true) →
      (l₁ ++ l₂).takeWhile p = l₁ ++ l₂.takeWhile p := by
  intro l₁ l₂ h
  induction l₁ with
  | nil => simp
  | cons c cs ih =>
    have hc : p c = true := h c (by simp)
    simp only [List.cons_append, List.takeWhile_cons, hc, if_true]
    rw [ih (fun d hd => h d (by simp [hd]))]

theorem dropWhile_append_all {p : Char → Bool} :
    ∀ (l₁ l₂ : List Char), (∀ c ∈ l₁, p c = true) →
      (l₁ ++ l₂).dropWhile p = l₂.dropWhile p := by
  intro l₁ l₂ h
  induction l₁ with
  | nil => simp
  | cons c cs ih =>
    have hc : p c = true := h c (by simp)
    simp only [List.cons_append, List.dropWhile_cons, hc, if_true]
    exact ih (fun d hd => h d (by simp [hd]))

theorem map_eq_self_of {f : Char → Char} :
    ∀ {l : List Char}, (∀ c ∈ l, f c = c) → l.map f = l := by
  intro l h
  induction l with
  | nil => rfl
  | cons c cs ih => simp [h c (by simp), ih (fun d hd => h d (by simp [hd]))]

/-- Every character of `joinWords ws` is a character of some word or a space. -/
theorem joinWords_chars :
    ∀ (ws : List (List Char)) (c : Char), c ∈ joinWords ws →
      (∃ w ∈ ws, c ∈ w) ∨ c = ' ' := by
  intro ws
  induction ws with
  | nil => intro c h; simp [joinWords] at h
  | cons w ws ih =>
    intro c h
    cases ws with
    | nil =>
      simp only [joinWords] at h
      exact Or.inl ⟨w, by simp, h⟩
    | cons w2 ws2 =>
      simp only [joinWords, List.mem_append, List.mem_cons] at h
      rcases h with h | h | h
      · exact Or.inl ⟨w, by simp, h⟩
      · exact Or.inr h
      · rcases ih c h with ⟨w', hw', hc⟩ | hsp
        · exact Or.inl ⟨w', by simp [hw'], hc⟩
        · exact Or.inr hsp

/-! ## Properties of `splitBy` -/

theorem splitBy_words_aux (keep : Char → Bool) :
    ∀ (n : Nat) (l : List Char), l.length ≤ n → ∀ w ∈ splitBy keep l,
      w ≠ [] ∧ ∀ c ∈ w, keep c = true ∧ c ∈ l := by
  intro n
  induction n using Nat.strong_induction_on with
  | _ n ih =>
    intro l hl w hw
    match l with
    | [] => simp [splitBy_nil] at hw
    | c :: cs =>
      have hn : 1 ≤ n := by simp at hl; omega
      cases hk : keep c with
      | false =>
        rw [splitBy_cons_neg hk] at hw
        have := ih (n - 1) (by omega) cs (by simp at hl; omega) w hw
        exact ⟨this.1, fun d hd => ⟨(this.2 d hd).1, by simp [(this.2 d hd).2]⟩⟩
      | true =>
        rw [splitBy_cons_pos hk] at hw
        rcases List.mem_cons.mp hw with rfl | hw'
        · refine ⟨by simp, ?_⟩
          intro d hd
          rcases List.mem_cons.mp hd with rfl | hd'
          · exact ⟨hk, by simp⟩
          · exact ⟨List.mem_takeWhile_imp hd',
              by simp [(List.takeWhile_sublist keep).subset hd']⟩
        · have hdw : (cs.dropWhile keep).length ≤ cs.length :=
            (@List.dropWhile_sublist Char cs keep).length_le
          have := ih (n - 1) (by omega) (cs.dropWhile keep) (by simp at hl; omega) w hw'
          refine ⟨this.1, fun d hd => ⟨(this.2 d hd).1, ?_⟩⟩
          have := (this.2 d hd).2
          simp [(@List.dropWhile_sublist Char cs keep).subset this]

/-- Words produced by `splitBy` are nonempty, consist of characters
satisfying `keep`, and their characters come from the input. -/
theorem splitBy_words (keep : Char → Bool) (l : List Char) (w : List Char)
    (hw : w ∈ splitBy keep l) : w ≠ [] ∧ ∀ c ∈ w, keep c = true ∧ c ∈ l :=
  splitBy_words_aux keep l.length l (le_refl _) w hw

/-- Splitting the space-joined words recovers the words, provided every word
is nonempty and consists of `keep`-characters, and `keep ' ' = false`. -/
theorem splitBy_joinWords {keep : Char → Bool} (hsp : keep ' ' = false) :
    ∀ (ws : List (List Char)),
      (∀ w ∈ ws, w ≠ [] ∧ ∀ c ∈ w, keep c = true) →
      splitBy keep (joinWords ws) = ws := by
  intro ws
  induction ws with
  | nil => intro _; simp [joinWords, splitBy_nil]
  | cons w ws ih =>
    intro h
    obtain ⟨hw, hwk⟩ := h w (by simp)
    obtain ⟨c, rest, rfl⟩ : ∃ c rest, w = c :: rest := by
      cases w with
      | nil => exact absurd rfl hw
      | cons c rest => exact ⟨c, rest, rfl⟩
    have hck : keep c = true := hwk c (by simp)
    have hrk : ∀ d ∈ rest, keep d = true := fun d hd => hwk d (by simp [hd])
    cases ws with
    | nil =>
      show splitBy keep (c :: rest) = [c :: rest]
      rw [splitBy_cons_pos hck, takeWhile_all hrk, dropWhile_all hrk, splitBy_nil]
    | cons w2 ws2 =>
      show splitBy keep (c :: (rest ++ ' ' :: joinWords (w2 :: ws2))) = _
      rw [splitBy_cons_pos hck,
        takeWhile_append_all rest _ hrk,
        dropWhile_append_all rest _ hrk]
      simp only [List.takeWhile_cons, List.dropWhile_cons, hsp, Bool.false_eq_true, if_false,
        List.append_nil]
      rw [splitBy_cons_neg hsp]
      rw [ih (fun w' hw' => h w' (by simp [hw']))]

/-! ## Character lemmas -/

theorem toNat_ofNat_lt {n : Nat} (h : n < 0xd800) : (Char.ofNat n).toNat = n := by
  have hv : n.isValidChar := Or.inl h
  rw [Char.ofNat, dif_pos hv]
  simp [Char.ofNatAux, Char.toNat, UInt32.toNat]

theorem toLowerC_idem (c : Char) : toLowerC (toLowerC c) = toLowerC c := by
  unfold toLowerC
  by_cases h : 65 ≤ c.toNat ∧ c.toNat ≤ 90
  · rw [if_pos h]
    have ht : (Char.ofNat (c.toNat + 32)).toNat = c.toNat + 32 :=
      toNat_ofNat_lt (by omega)
    rw [if_neg (by omega)]
  · rw [if_neg h, if_neg h]

theorem toLowerC_space : toLowerC ' ' = ' ' := by decide

/-! ## Subset lemmas for the stripping passes -/

theorem dropPrefixQ_sub :
    ∀ (p l r : List Char), dropPrefixQ p l = some r → ∀ c ∈ r, c ∈ l := by
  intro p
  induction p with
  | nil => intro l r h; simp [dropPrefixQ] at h; simp [h]
  | cons a ps ih =>
    intro l r h
    cases l with
    | nil => simp [dropPrefixQ] at h
    | cons c cs =>
      simp only [dropPrefixQ] at h
      by_cases hc : c = a
      · simp [hc] at h
        intro d hd
        simp [ih cs r h d hd]
      · simp [hc] at h

theorem tryUrl_sub :
    ∀ (l r : List Char), tryUrl l = some r → ∀ c ∈ r, c ∈ l := by
  intro l r h
  unfold tryUrl at h
  rcases h1 : dropPrefixQ "https://".toList l with _ | r1 <;> rw [h1] at h
  · rcases h2 : dropPrefixQ "http://".toList l with _ | r2 <;> rw [h2] at h
    · rcases h3 : dropPrefixQ "www.".toList l with _ | r3 <;> rw [h3] at h
      · simp at h
      · intro c hc
        cases r3 with
        | nil => simp [grabRun] at h
        | cons a as =>
          simp only [grabRun] at h
          by_cases hsp : isSpaceB a
          · simp [hsp] at h
          · simp [hsp] at h
            subst h
            exact dropPrefixQ_sub _ _ _ h3 c
              (by simp [(@List.dropWhile_sublist Char as notSpace).subset hc])
    · intro c hc
      cases r2 with
      | nil => simp [grabRun] at h
      | cons a as =>
        simp only [grabRun] at h
        by_cases hsp : isSpaceB a
        · simp [hsp] at h
        · simp [hsp] at h
          subst h
          exact dropPrefixQ_sub _ _ _ h2 c
            (by simp [(@List.dropWhile_sublist Char as notSpace).subset hc])
  · intro c hc
    cases r1 with
    | nil => simp [grabRun] at h
    | cons a as =>
      simp only [grabRun] at h
      by_cases hsp : isSpaceB a
      · simp [hsp] at h
      · simp [hsp] at h
        subst h
        exact dropPrefixQ_sub _ _ _ h1 c
          (by simp [(@List.dropWhile_sublist Char as notSpace).subset hc])

theorem stripUrls_sub_aux :
    ∀ (n : Nat) (l : List Char), l.length ≤ n → ∀ c ∈ stripUrls l, c ∈ l := by
  intro n
  induction n using Nat.strong_induction_on with
  | _ n ih =>
    intro l hl c hc
    match l with
    | [] => simp [stripUrls_nil] at hc
    | a :: as =>
      have hn : 1 ≤ n := by simp at hl; omega
      rcases hu : tryUrl (a :: as) with _ | rest
      · rw [stripUrls_cons_none hu] at hc
        rcases List.mem_cons.mp hc with rfl | hc'
        · simp
        · simp [ih (n - 1) (by omega) as (by simp at hl; omega) c hc']
      · rw [stripUrls_cons_some hu] at hc
        have hrest : rest.length ≤ n - 1 := by
          have := tryUrl_length _ _ hu
          simp at this hl
          omega
        exact tryUrl_sub _ _ hu c (ih (n - 1) (by omega) rest hrest c hc)

theorem stripUrls_sub (l : List Char) : ∀ c ∈ stripUrls l, c ∈ l :=
  stripUrls_sub_aux l.length l (le_refl _)

theorem stripEmails_sub_aux :
    ∀ (n : Nat) (l : List Char), l.length ≤ n → ∀ c ∈ stripEmails l, c ∈ l := by
  intro n
  induction n using Nat.strong_induction_on with
  | _ n ih =>
    intro l hl c hc
    match l with
    | [] => simp [stripEmails_nil] at hc
    | a :: as =>
      have hn : 1 ≤ n := by simp at hl; omega
      have hdw : (as.dropWhile notSpace).length ≤ as.length :=
        (@List.dropWhile_sublist Char as notSpace).length_le
      cases hsp : isSpaceB a with
      | true =>
        rw [stripEmails_cons_space hsp] at hc
        rcases List.mem_cons.mp hc with rfl | hc'
        · simp
        · simp [ih (n - 1) (by omega) as (by simp at hl; omega) c hc']
      | false =>
        rw [stripEmails_cons_word hsp] at hc
        rcases List.mem_append.mp hc with hc' | hc'
        · split at hc'
          · exact absurd hc' (List.not_mem_nil c)
          · rcases List.mem_cons.mp hc' with rfl | hc''
            · simp
            · simp [(@List.takeWhile_sublist Char as notSpace).subset hc'']
        · have := ih (n - 1) (by omega) (as.dropWhile notSpace)
            (by simp at hl; omega) c hc'
          simp [(@List.dropWhile_sublist Char as notSpace).subset this]

theorem stripEmails_sub (l : List Char) : ∀ c ∈ stripEmails l, c ∈ l :=
  stripEmails_sub_aux l.length l (le_refl _)

/-! ## Identity lemmas: on clean word material the stripping passes and the
punctuation/number filters do nothing -/

theorem dropPrefixQ_pfx_mem :
    ∀ (p l r : List Char), dropPrefixQ p l = some r → ∀ c ∈ p, c ∈ l := by
  intro p
  induction p with
  | nil => intro l r h c hc; simp at hc
  | cons a ps ih =>
    intro l r h c hc
    cases l with
    | nil => simp [dropPrefixQ] at h
    | cons b bs =>
      simp only [dropPrefixQ] at h
      by_cases hb : b = a
      · subst hb
        simp only [if_pos rfl] at h
        rcases List.mem_cons.mp hc with rfl | hc'
        · simp
        · simp [ih bs r h c hc']
      · simp [hb] at h

theorem tryUrl_none_of_no_colon_dot {l : List Char}
    (h : ∀ c ∈ l, c ≠ ':' ∧ c ≠ '.') : tryUrl l = none := by
  unfold tryUrl
  rcases h1 : dropPrefixQ "https://".toList l with _ | r1
  · rcases h2 : dropPrefixQ "http://".toList l with _ | r2
    · rcases h3 : dropPrefixQ "www.".toList l with _ | r3
      · rfl
      · exfalso
        have : '.' ∈ l := dropPrefixQ_pfx_mem _ _ _ h3 '.' (by decide)
        exact (h '.' this).2 rfl
    · exfalso
      have : ':' ∈ l := dropPrefixQ_pfx_mem _ _ _ h2 ':' (by decide)
      exact (h ':' this).1 rfl
  · exfalso
    have : ':' ∈ l := dropPrefixQ_pfx_mem _ _ _ h1 ':' (by decide)
    exact (h ':' this).1 rfl

theorem stripUrls_id {l : List Char}
    (h : ∀ c ∈ l, c ≠ ':' ∧ c ≠ '.') : stripUrls l = l := by
  induction l with
  | nil => exact stripUrls_nil
  | cons c cs ih =>
    rw [stripUrls_cons_none (tryUrl_none_of_no_colon_dot h)]
    rw [ih (fun d hd => h d (by simp [hd]))]

theorem stripEmails_id_aux :
    ∀ (n : Nat) (l : List Char), l.length ≤ n → (∀ c ∈ l, c ≠ '@') →
      stripEmails l = l := by
  intro n
  induction n using Nat.strong_induction_on with
  | _ n ih =>
    intro l hl h
    match l with
    | [] => exact stripEmails_nil
    | a :: as =>
      have hn : 1 ≤ n := by simp at hl; omega
      cases hsp : isSpaceB a with
      | true =>
        rw [stripEmails_cons_space hsp]
        rw [ih (n - 1) (by omega) as (by simp at hl; omega)
          (fun d hd => h d (by simp [hd]))]
      | false =>
        rw [stripEmails_cons_word hsp]
        have hat : (as.takeWhile notSpace).dropLast.contains '@' = false := by
          have hmem : '@' ∉ (as.takeWhile notSpace).dropLast := by
            intro hd
            have hdl : '@' ∈ as.takeWhile notSpace := List.dropLast_subset _ hd
            have : ('@' : Char) ∈ a :: as := by
              simp [(@List.takeWhile_sublist Char as notSpace).subset hdl]
            exact h '@' this rfl
          simpa using hmem
        rw [hat]
        simp only [Bool.false_eq_true, if_false]
        have hdw : (as.dropWhile notSpace).length ≤ as.length :=
          (@List.dropWhile_sublist Char as notSpace).length_le
        rw [ih (n - 1) (by omega) (as.dropWhile notSpace) (by simp at hl; omega)
          (fun d hd => h d (by
            simp [(@List.dropWhile_sublist Char as notSpace).subset hd]))]
        simp [List.takeWhile_append_dropWhile]

theorem stripEmails_id {l : List Char} (h : ∀ c ∈ l, c ≠ '@') : stripEmails l = l :=
  stripEmails_id_aux l.length l (le_refl _) h

theorem plainChar_space_ne (cfg : PreprocessorConfig) {c : Char}
    (h : plainChar cfg c) : notSpace c = true := by
  simp [notSpace, h.1]

/-- Characters of `cleanCore` are non-punctuation, lowercase-stable and,
with number removal on, non-digit. -/
theorem cleanCore_chars (cfg : PreprocessorConfig) (l : List Char) :
    ∀ c ∈ cleanCore cfg l,
      isPunct c = false ∧ toLowerC c = c ∧
        (cfg.remove_numbers = true → c.isDigit = false) := by
  intro c hc
  unfold cleanCore at hc
  simp only at hc
  have hpunct : isPunct c = false := by
    have := List.mem_filter.mp hc
    simpa using this.2
  have hc4 : c ∈ (if cfg.remove_numbers then
      (stripEmails (stripUrls (l.map toLowerC))).filter (fun c => !c.isDigit)
      else stripEmails (stripUrls (l.map toLowerC))) := (List.mem_filter.mp hc).1
  have hdigit : cfg.remove_numbers = true → c.isDigit = false := by
    intro hrn
    rw [if_pos hrn] at hc4
    have := List.mem_filter.mp hc4
    simpa using this.2
  have hc3 : c ∈ stripEmails (stripUrls (l.map toLowerC)) := by
    by_cases hrn : cfg.remove_numbers
    · rw [if_pos hrn] at hc4
      exact (List.mem_filter.mp hc4).1
    · rwa [if_neg hrn] at hc4
  have hc1 : c ∈ l.map toLowerC :=
    stripUrls_sub _ c (stripEmails_sub _ c hc3)
  have hlow : toLowerC c = c := by
    rcases List.mem_map.mp hc1 with ⟨d, _, rfl⟩
    exact toLowerC_idem d
  exact ⟨hpunct, hlow, hdigit⟩

/-- The words of the whitespace-split of `cleanCore` are nonempty and made of
plain characters. -/
theorem cleanCore_words_plain (cfg : PreprocessorConfig) (l : List Char) :
    ∀ w ∈ splitBy notSpace (cleanCore cfg l),
      w ≠ [] ∧ ∀ c ∈ w, plainChar cfg c := by
  intro w hw
  obtain ⟨hne, hall⟩ := splitBy_words notSpace _ w hw
  refine ⟨hne, fun c hc => ?_⟩
  obtain ⟨hkeep, hmem⟩ := hall c hc
  have hsp : isSpaceB c = false := by
    simpa [notSpace] using hkeep
  obtain ⟨hp, hl, hd⟩ := cleanCore_chars cfg l c hmem
  exact ⟨hsp, hp, hl, hd⟩

/-- Tokenizing `_clean_text`'s output equals the whitespace-split of its
character-level core (the final `' '.join(text.split())` round-trips). -/
theorem rawTokens_eq (P : TextPreprocessor) (l : List Char) :
    rawTokens P l = splitBy notSpace (cleanCore P.config l) := by
  unfold rawTokens cleanList
  apply splitBy_joinWords (by decide)
  intro w hw
  obtain ⟨hne, hall⟩ := splitBy_words notSpace _ w hw
  exact ⟨hne, fun c hc => (hall c hc).1⟩

/-- Fact: `cleanCore` is the identity on a space-join of plain nonempty words. -/
theorem cleanCore_id_of_plain (cfg : PreprocessorConfig) (ws : List (List Char))
    (hw : ∀ w ∈ ws, w ≠ [] ∧ ∀ c ∈ w, plainChar cfg c) :
    cleanCore cfg (joinWords ws) = joinWords ws := by
  have hchar : ∀ c ∈ joinWords ws, plainChar cfg c ∨ c = ' ' := by
    intro c hc
    rcases joinWords_chars ws c hc with ⟨w, hwmem, hcw⟩ | hsp
    · exact Or.inl ((hw w hwmem).2 c hcw)
    · exact Or.inr hsp
  unfold cleanCore
  simp only
  have h1 : (joinWords ws).map toLowerC = joinWords ws := by
    apply map_eq_self_of
    intro c hc
    rcases hchar c hc with hpc | rfl
    · exact hpc.2.2.1
    · exact toLowerC_space
  rw [h1]
  have h2 : stripUrls (joinWords ws) = joinWords ws := by
    apply stripUrls_id
    intro c hc
    rcases hchar c hc with hpc | rfl
    · constructor
      · intro hceq; subst hceq; exact absurd hpc.2.1 (by decide)
      · intro hceq; subst hceq; exact absurd hpc.2.1 (by decide)
    · constructor <;> decide
  rw [h2]
  have h3 : stripEmails (joinWords ws) = joinWords ws := by
    apply stripEmails_id
    intro c hc
    rcases hchar c hc with hpc | rfl
    · intro hceq; subst hceq; exact absurd hpc.2.1 (by decide)
    · decide
  rw [h3]
  have h4 : (if cfg.remove_numbers then
      (joinWords ws).filter (fun c => !c.isDigit) else joinWords ws) = joinWords ws := by
    by_cases hrn : cfg.remove_numbers
    · rw [if_pos hrn]
      apply List.filter_eq_self.mpr
      intro c hc
      rcases hchar c hc with hpc | rfl
      · simp [hpc.2.2.2 hrn]
      · decide
    · rw [if_neg hrn]
  rw [h4]
  apply List.filter_eq_self.mpr
  intro c hc
  rcases hchar c hc with hpc | rfl
  · simp [hpc.2.1]
  · decide

/-- A space-join of good (steady-state) tokens is a fixed point of
`preprocessL`. -/
theorem preprocessL_fixed (P : TextPreprocessor) (ws : List (List Char))
    (hw : ∀ w ∈ ws, w ≠ [] ∧ (∀ c ∈ w, plainChar P.config c) ∧
      P.stop_words.contains (String.mk w) = false ∧
      P.config.min_word_length ≤ w.length ∧
      (P.config.use_lemmatization = true → P.lemm w = w)) :
    preprocessL P (joinWords ws) = joinWords ws := by
  cases ws with
  | nil => rfl
  | cons w0 ws0 =>
    obtain ⟨hne0, hpl0, _, _, _⟩ := hw w0 (by simp)
    obtain ⟨c0, rest0, rfl⟩ : ∃ c rest, w0 = c :: rest := by
      cases w0 with
      | nil => exact absurd rfl hne0
      | cons c rest => exact ⟨c, rest, rfl⟩
    have hc0 : isSpaceB c0 = false := (hpl0 c0 (by simp)).1
    have hnall : ((joinWords ((c0 :: rest0) :: ws0)).all isSpaceB) = false := by
      apply List.all_eq_false.mpr
      refine ⟨c0, ?_, by simp [hc0]⟩
      cases ws0 with
      | nil => simp [joinWords]
      | cons w1 ws1 => simp [joinWords]
    unfold preprocessL
    rw [hnall]
    simp only [Bool.false_eq_true, if_false]
    have hplain : ∀ w ∈ (c0 :: rest0) :: ws0, w ≠ [] ∧ ∀ c ∈ w, plainChar P.config c :=
      fun w hwm => ⟨(hw w hwm).1, (hw w hwm).2.1⟩
    have htok : rawTokens P (joinWords ((c0 :: rest0) :: ws0)) = (c0 :: rest0) :: ws0 := by
      rw [rawTokens_eq, cleanCore_id_of_plain P.config _ hplain]
      apply splitBy_joinWords (by decide)
      intro w hwm
      exact ⟨(hplain w hwm).1, fun c hc => plainChar_space_ne _ ((hplain w hwm).2 c hc)⟩
    have hstop : List.filter (fun t => !(P.stop_words.contains (String.mk t)))
        ((c0 :: rest0) :: ws0) = (c0 :: rest0) :: ws0 :=
      List.filter_eq_self.mpr (fun w hwm => by simpa using (hw w hwm).2.2.1)
    have hlen : List.filter (fun t => decide (P.config.min_word_length ≤ t.length))
        ((c0 :: rest0) :: ws0) = (c0 :: rest0) :: ws0 :=
      List.filter_eq_self.mpr (fun w hwm => by simp [(hw w hwm).2.2.2.1])
    have hkept : keptTokens P (joinWords ((c0 :: rest0) :: ws0)) = (c0 :: rest0) :: ws0 := by
      unfold keptTokens
      rw [htok, hstop, hlen]
    unfold finalTokens
    cases hu : P.config.use_lemmatization with
    | false =>
      simp only [Bool.false_eq_true, if_false]
      rw [hkept]
    | true =>
      simp only [if_true]
      rw [hkept]
      have hfix : ∀ w ∈ (c0 :: rest0) :: ws0, P.lemm w = w :=
        fun w hwm => (hw w hwm).2.2.2.2 hu
      congr 1
      calc ((c0 :: rest0) :: ws0).map P.lemm
          = ((c0 :: rest0) :: ws0).map id := List.map_congr_left (by simpa using hfix)
        _ = (c0 :: rest0) :: ws0 := List.map_id _

/-- Under the steady-state lemmatizer hypothesis, every token in
`preprocess`'s output is a good (fixed-point) token. -/
theorem finalTokens_good (P : TextPreprocessor)
    (hlem : P.config.use_lemmatization = true → ∀ w, GoodLemma P (P.lemm w))
    (l : List Char) :
    ∀ w ∈ finalTokens P l, w ≠ [] ∧ (∀ c ∈ w, plainChar P.config c) ∧
      P.stop_words.contains (String.mk w) = false ∧
      P.config.min_word_length ≤ w.length ∧
      (P.config.use_lemmatization = true → P.lemm w = w) := by
  intro w hw
  unfold finalTokens at hw
  cases hu : P.config.use_lemmatization with
  | true =>
    rw [if_pos hu] at hw
    rcases List.mem_map.mp hw with ⟨w0, _, rfl⟩
    obtain ⟨hne, hplain, hstop, hlen, hfix⟩ := hlem hu w0
    exact ⟨hne, hplain, hstop, hlen, fun _ => hfix⟩
  | false =>
    rw [if_neg (by simp [hu])] at hw
    unfold keptTokens at hw
    have hw2 := List.mem_filter.mp hw
    have hw1 := List.mem_filter.mp hw2.1
    have hraw : w ∈ rawTokens P l := hw1.1
    rw [rawTokens_eq] at hraw
    obtain ⟨hne, hplain⟩ := cleanCore_words_plain P.config l w hraw
    refine ⟨hne, hplain, ?_, ?_, ?_⟩
    · simpa using hw1.2
    · simpa using hw2.2
    · intro hcontra; simp [hu] at hcontra

/-- C4 (counterexample): with the default configuration, the source's
fallback stop words and a lemmatizer behaving like WordNet on "downs"
(lemma "down", a stop word), `preprocess` is not idempotent:
`preprocess "downs" = "down"` but `preprocess "down" = ""`. -/
theorem c4_counterexample :
    ¬ (preprocess Pdowns (preprocess Pdowns "downs") = preprocess Pdowns "downs") := by
  decide

/-- C4 (amended): `preprocess (preprocess s) = preprocess s` for every
string `s`, provided the lemmatization stage has reached steady state —
whenever lemmatization is enabled, every lemmatizer output is a nonempty
token of plain characters, not a stop word, at least the minimum length,
and itself lemma-fixed.  (With lemmatization disabled no hypothesis is
needed.) -/
theorem c4_preprocess_idempotent (P : TextPreprocessor)
    (hlem : P.config.use_lemmatization = true → ∀ w, GoodLemma P (P.lemm w))
    (s : String) :
    preprocess P (preprocess P s) = preprocess P s := by
  unfold preprocess
  congr 1
  show preprocessL P (preprocessL P s.toList) = preprocessL P s.toList
  by_cases hsp : (s.toList.all isSpaceB) = true
  · have h0 : preprocessL P s.toList = [] := by
      unfold preprocessL
      rw [if_pos hsp]
    rw [h0]
    rfl
  · have h1 : preprocessL P s.toList = joinWords (finalTokens P s.toList) := by
      unfold preprocessL
      rw [if_neg hsp]
    rw [h1]
    exact preprocessL_fixed P (finalTokens P s.toList) (finalTokens_good P hlem s.toList)

/-- C4 witness: the amended idempotence theorem applied at a concrete
steady-state preprocessor and input. -/
theorem c4_witness :
    preprocess Psteady (preprocess Psteady "Hello world") =
      preprocess Psteady "Hello world" := by
  apply c4_preprocess_idempotent
  intro _ w
  show GoodLemma Psteady ("aa".toList)
  refine ⟨by decide, by decide, by decide, by decide, rfl⟩

theorem startsWithL_mem :
    ∀ (needle hay : List Char), startsWithL needle hay = true → ∀ c ∈ needle, c ∈ hay := by
  intro needle
  induction needle with
  | nil => intro hay _ c hc; simp at hc
  | cons a as ih =>
    intro hay h c hc
    cases hay with
    | nil => simp [startsWithL] at h
    | cons d ds =>
      simp only [startsWithL, Bool.and_eq_true] at h
      obtain ⟨had, hrest⟩ := h
      have had' : a = d := by simpa using had
      rcases List.mem_cons.mp hc with rfl | hc'
      · simp [had']
      · simp [ih ds hrest c hc']

/-- A substring whose characters are not all present cannot occur. -/
theorem containsSub_eq_false (c0 : Char) {needle : List Char} (hc : c0 ∈ needle) :
    ∀ {hay : List Char}, c0 ∉ hay → containsSub needle hay = false := by
  intro hay
  induction hay with
  | nil =>
    intro _
    cases needle with
    | nil => simp at hc
    | cons a as => rfl
  | cons d ds ih =>
    intro hh
    show (startsWithL needle (d :: ds) || containsSub needle ds) = false
    rw [Bool.or_eq_false_iff]
    constructor
    · cases hb : startsWithL needle (d :: ds) with
      | false => rfl
      | true => exact absurd (startsWithL_mem needle (d :: ds) hb c0 hc) hh
    · exact ih (fun hmem => hh (by simp [hmem]))

/-- C9: with the default configuration, any stop-word set and any lemmatizer
that fixes the surviving plain tokens, URL-shaped and email-shaped material
is removed before punctuation stripping: the normalization of
"Check https://x.com now" contains neither "https" nor "x.com" as a
substring and every one of its tokens is one of the words "check"/"now";
the normalization of "mail me at a@b.com please" contains no '@' character
and every one of its tokens is one of the words "mail"/"me"/"at"/"please" —
so no token derived from the email address occurs, in particular not the
token "abcom" that mere punctuation stripping of "a@b.com" would have
produced. -/
theorem c9_urls_emails_stripped (stop : List String) (lemm : List Char → List Char)
    (h1 : lemm "check".toList = "check".toList)
    (h2 : lemm "now".toList = "now".toList)
    (h3 : lemm "mail".toList = "mail".toList)
    (h4 : lemm "me".toList = "me".toList)
    (h5 : lemm "at".toList = "at".toList)
    (h6 : lemm "please".toList = "please".toList) :
    containsSub "https".toList
        (preprocess ⟨defaultPreCfg, stop, lemm⟩ "Check https://x.com now").toList = false ∧
    containsSub "x.com".toList
        (preprocess ⟨defaultPreCfg, stop, lemm⟩ "Check https://x.com now").toList = false ∧
    (∀ w ∈ splitBy notSpace
        (preprocess ⟨defaultPreCfg, stop, lemm⟩ "Check https://x.com now").toList,
      w = "check".toList ∨ w = "now".toList) ∧
    ('@' ∉ (preprocess ⟨defaultPreCfg, stop, lemm⟩ "mail me at a@b.com please").toList) ∧
    (∀ w ∈ splitBy notSpace
        (preprocess ⟨defaultPreCfg, stop, lemm⟩ "mail me at a@b.com please").toList,
      w = "mail".toList ∨ w = "me".toList ∨ w = "at".toList ∨ w = "please".toList) ∧
    containsSub "abcom".toList
        (preprocess ⟨defaultPreCfg, stop, lemm⟩ "mail me at a@b.com please").toList
        = false := by
  have hmem1 : ∀ w ∈ finalTokens ⟨defaultPreCfg, stop, lemm⟩ "Check https://x.com now".toList,
      w = "check".toList ∨ w = "now".toList := by
    intro w hw
    have hw2 : w ∈ List.map lemm
        (keptTokens ⟨defaultPreCfg, stop, lemm⟩ "Check https://x.com now".toList) := hw
    rcases List.mem_map.mp hw2 with ⟨w0, hw0, rfl⟩
    have hw0' : w0 ∈ splitBy notSpace (cleanList defaultPreCfg "Check https://x.com now".toList) :=
      List.mem_of_mem_filter (List.mem_of_mem_filter hw0)
    have hraw : splitBy notSpace (cleanList defaultPreCfg "Check https://x.com now".toList) =
        ["check".toList, "now".toList] := by decide
    rw [hraw] at hw0'
    rcases List.mem_cons.mp hw0' with rfl | hw0''
    · rw [h1]; exact Or.inl rfl
    · have : w0 = "now".toList := by simpa using hw0''
      subst this
      rw [h2]; exact Or.inr rfl
  have hmem2 : ∀ w ∈ finalTokens ⟨defaultPreCfg, stop, lemm⟩ "mail me at a@b.com please".toList,
      w = "mail".toList ∨ w = "me".toList ∨ w = "at".toList ∨ w = "please".toList := by
    intro w hw
    have hw2 : w ∈ List.map lemm
        (keptTokens ⟨defaultPreCfg, stop, lemm⟩ "mail me at a@b.com please".toList) := hw
    rcases List.mem_map.mp hw2 with ⟨w0, hw0, rfl⟩
    have hw0' : w0 ∈ splitBy notSpace (cleanList defaultPreCfg "mail me at a@b.com please".toList) :=
      List.mem_of_mem_filter (List.mem_of_mem_filter hw0)
    have hraw : splitBy notSpace (cleanList defaultPreCfg "mail me at a@b.com please".toList) =
        ["mail".toList, "me".toList, "at".toList, "please".toList] := by decide
    rw [hraw] at hw0'
    simp only [List.mem_cons, List.not_mem_nil, or_false] at hw0'
    rcases hw0' with rfl | rfl | rfl | rfl
    · rw [h3]; exact Or.inl rfl
    · rw [h4]; exact Or.inr (Or.inl rfl)
    · rw [h5]; exact Or.inr (Or.inr (Or.inl rfl))
    · rw [h6]; exact Or.inr (Or.inr (Or.inr rfl))
  have hchars1 : ∀ c ∈ (preprocess ⟨defaultPreCfg, stop, lemm⟩ "Check https://x.com now").toList,
      c ∈ "checknow ".toList := by
    intro c hc
    have hc' : c ∈ preprocessL ⟨defaultPreCfg, stop, lemm⟩ "Check https://x.com now".toList := hc
    unfold preprocessL at hc'
    rw [if_neg (by decide)] at hc'
    rcases joinWords_chars _ c hc' with ⟨w, hw, hcw⟩ | rfl
    · rcases hmem1 w hw with rfl | rfl
      · exact (by decide : ∀ c ∈ "check".toList, c ∈ "checknow ".toList) c hcw
      · exact (by decide : ∀ c ∈ "now".toList, c ∈ "checknow ".toList) c hcw
    · decide
  have hchars2 : ∀ c ∈ (preprocess ⟨defaultPreCfg, stop, lemm⟩
      "mail me at a@b.com please").toList, c ∈ "mailetps ".toList := by
    intro c hc
    have hc' : c ∈ preprocessL ⟨defaultPreCfg, stop, lemm⟩
        "mail me at a@b.com please".toList := hc
    unfold preprocessL at hc'
    rw [if_neg (by decide)] at hc'
    rcases joinWords_chars _ c hc' with ⟨w, hw, hcw⟩ | rfl
    · rcases hmem2 w hw with rfl | rfl | rfl | rfl
      · exact (by decide : ∀ c ∈ "mail".toList, c ∈ "mailetps ".toList) c hcw
      · exact (by decide : ∀ c ∈ "me".toList, c ∈ "mailetps ".toList) c hcw
      · exact (by decide : ∀ c ∈ "at".toList, c ∈ "mailetps ".toList) c hcw
      · exact (by decide : ∀ c ∈ "please".toList, c ∈ "mailetps ".toList) c hcw
    · decide
  have hsplit1 : splitBy notSpace
      (preprocess ⟨defaultPreCfg, stop, lemm⟩ "Check https://x.com now").toList =
      finalTokens ⟨defaultPreCfg, stop, lemm⟩ "Check https://x.com now".toList := by
    have hpl : preprocessL ⟨defaultPreCfg, stop, lemm⟩ "Check https://x.com now".toList =
        joinWords (finalTokens ⟨defaultPreCfg, stop, lemm⟩ "Check https://x.com now".toList) := by
      unfold preprocessL
      rw [if_neg (by decide)]
    show splitBy notSpace
        (preprocessL ⟨defaultPreCfg, stop, lemm⟩ "Check https://x.com now".toList) = _
    rw [hpl]
    apply splitBy_joinWords (by decide)
    intro w hw
    rcases hmem1 w hw with rfl | rfl
    · exact ⟨by decide, by decide⟩
    · exact ⟨by decide, by decide⟩
  have hsplit2 : splitBy notSpace
      (preprocess ⟨defaultPreCfg, stop, lemm⟩ "mail me at a@b.com please").toList =
      finalTokens ⟨defaultPreCfg, stop, lemm⟩ "mail me at a@b.com please".toList := by
    have hpl : preprocessL ⟨defaultPreCfg, stop, lemm⟩ "mail me at a@b.com please".toList =
        joinWords (finalTokens ⟨defaultPreCfg, stop, lemm⟩
          "mail me at a@b.com please".toList) := by
      unfold preprocessL
      rw [if_neg (by decide)]
    show splitBy notSpace
        (preprocessL ⟨defaultPreCfg, stop, lemm⟩ "mail me at a@b.com please".toList) = _
    rw [hpl]
    apply splitBy_joinWords (by decide)
    intro w hw
    rcases hmem2 w hw with rfl | rfl | rfl | rfl
    · exact ⟨by decide, by decide⟩
    · exact ⟨by decide, by decide⟩
    · exact ⟨by decide, by decide⟩
    · exact ⟨by decide, by decide⟩
  refine ⟨?_, ?_, ?_, ?_, ?_, ?_⟩
  · apply containsSub_eq_false 'p' (by decide)
    intro hp
    exact absurd (hchars1 'p' hp) (by decide)
  · apply containsSub_eq_false '.' (by decide)
    intro hd
    exact absurd (hchars1 '.' hd) (by decide)
  · intro w hw
    rw [hsplit1] at hw
    exact hmem1 w hw
  · intro hat
    exact absurd (hchars2 '@' hat) (by decide)
  · intro w hw
    rw [hsplit2] at hw
    exact hmem2 w hw
  · apply containsSub_eq_false 'b' (by decide)
    intro hb
    exact absurd (hchars2 'b' hb) (by decide)

/-- C9 witness: the stripping theorem at the identity lemmatizer and the
source's fallback stop-word list. -/
theorem c9_witness :
    containsSub "https".toList
        (preprocess ⟨defaultPreCfg, fallbackStopWords, id⟩ "Check https://x.com now").toList
        = false ∧
    containsSub "x.com".toList
        (preprocess ⟨defaultPreCfg, fallbackStopWords, id⟩ "Check https://x.com now").toList
        = false ∧
    (∀ w ∈ splitBy notSpace
        (preprocess ⟨defaultPreCfg, fallbackStopWords, id⟩ "Check https://x.com now").toList,
      w = "check".toList ∨ w = "now".toList) ∧
    ('@' ∉ (preprocess ⟨defaultPreCfg, fallbackStopWords, id⟩
        "mail me at a@b.com please").toList) ∧
    (∀ w ∈ splitBy notSpace
        (preprocess ⟨defaultPreCfg, fallbackStopWords, id⟩
          "mail me at a@b.com please").toList,
      w = "mail".toList ∨ w = "me".toList ∨ w = "at".toList ∨ w = "please".toList) ∧
    containsSub "abcom".toList
        (preprocess ⟨defaultPreCfg, fallbackStopWords, id⟩
          "mail me at a@b.com please").toList = false :=
  c9_urls_emails_stripped fallbackStopWords id rfl rfl rfl rfl rfl rfl

theorem insertDesc_perm (x : MatchResult) :
    ∀ (l : List MatchResult), (insertDesc x l).Perm (x :: l) := by
  intro l
  induction l with
  | nil => exact List.Perm.refl _
  | cons y ys ih =>
    unfold insertDesc
    by_cases h : x.similarity_score < y.similarity_score
    · rw [if_pos h]
      exact (ih.cons y).trans (List.Perm.swap x y ys)
    · rw [if_neg h]

theorem sortDesc_perm : ∀ (l : List MatchResult), (sortDesc l).Perm l := by
  intro l
  induction l with
  | nil => exact List.Perm.refl _
  | cons x xs ih =>
    exact (insertDesc_perm x (sortDesc xs)).trans (ih.cons x)

theorem mem_sortDesc {a : MatchResult} {l : List MatchResult} :
    a ∈ sortDesc l ↔ a ∈ l :=
  (sortDesc_perm l).mem_iff

theorem insertDesc_wdesc (x : MatchResult) :
    ∀ (l : List MatchResult), l.Pairwise wdesc → (insertDesc x l).Pairwise wdesc := by
  intro l
  induction l with
  | nil => intro _; exact List.pairwise_cons.mpr ⟨by simp, List.Pairwise.nil⟩
  | cons y ys ih =>
    intro h
    obtain ⟨hy, hys⟩ := List.pairwise_cons.mp h
    unfold insertDesc
    by_cases hlt : x.similarity_score < y.similarity_score
    · rw [if_pos hlt]
      apply List.pairwise_cons.mpr
      refine ⟨?_, ih hys⟩
      intro z hz
      rcases List.mem_cons.mp ((insertDesc_perm x ys).mem_iff.mp hz) with rfl | hz'
      · exact le_of_lt hlt
      · exact hy z hz'
    · rw [if_neg hlt]
      apply List.pairwise_cons.mpr
      refine ⟨?_, h⟩
      intro z hz
      rcases List.mem_cons.mp hz with rfl | hz'
      · exact le_of_not_lt hlt
      · exact le_trans (hy z hz') (le_of_not_lt hlt)

theorem sortDesc_wdesc : ∀ (l : List MatchResult), (sortDesc l).Pairwise wdesc := by
  intro l
  induction l with
  | nil => exact List.Pairwise.nil
  | cons x xs ih => exact insertDesc_wdesc x (sortDesc xs) ih

theorem insertDesc_ranked (x : MatchResult) :
    ∀ (l : List MatchResult), l.Pairwise rankedBefore →
      (∀ y ∈ l, x.idx < y.idx) → (insertDesc x l).Pairwise rankedBefore := by
  intro l
  induction l with
  | nil => intro _ _; exact List.pairwise_cons.mpr ⟨by simp, List.Pairwise.nil⟩
  | cons y ys ih =>
    intro h hidx
    obtain ⟨hy, hys⟩ := List.pairwise_cons.mp h
    unfold insertDesc
    by_cases hlt : x.similarity_score < y.similarity_score
    · rw [if_pos hlt]
      apply List.pairwise_cons.mpr
      refine ⟨?_, ih hys (fun z hz => hidx z (by simp [hz]))⟩
      intro z hz
      rcases List.mem_cons.mp ((insertDesc_perm x ys).mem_iff.mp hz) with rfl | hz'
      · exact Or.inl hlt
      · exact hy z hz'
    · rw [if_neg hlt]
      apply List.pairwise_cons.mpr
      refine ⟨?_, h⟩
      intro z hz
      rcases List.mem_cons.mp hz with rfl | hz'
      · rcases lt_or_eq_of_le (le_of_not_lt hlt) with hlt2 | heq
        · exact Or.inl hlt2
        · exact Or.inr ⟨heq.symm, hidx z (by simp)⟩
      · rcases hy z hz' with hlt2 | ⟨heq, _⟩
        · exact Or.inl (lt_of_lt_of_le hlt2 (le_of_not_lt hlt))
        · rcases lt_or_eq_of_le (le_of_not_lt hlt) with hlt3 | heq3
          · exact Or.inl (by rw [← heq]; exact hlt3)
          · exact Or.inr ⟨heq3.symm.trans heq, hidx z (by simp [hz'])⟩

theorem sortDesc_ranked :
    ∀ (l : List MatchResult), l.Pairwise (fun a b => a.idx < b.idx) →
      (sortDesc l).Pairwise rankedBefore := by
  intro l
  induction l with
  | nil => intro _; exact List.Pairwise.nil
  | cons x xs ih =>
    intro h
    obtain ⟨hx, hxs⟩ := List.pairwise_cons.mp h
    exact insertDesc_ranked x (sortDesc xs) (ih hxs)
      (fun y hy => hx y (mem_sortDesc.mp hy))

/-! ## Membership in `mkMatches` -/

theorem mem_mkMatches (th : ℚ) :
    ∀ (rows : List (FAQ × String)) (sims : List ℚ) (i : Nat) (m : MatchResult),
      m ∈ mkMatches th i rows sims ↔
        ∃ j, m.idx = i + j ∧ rows[j]? = some (m.faq, m.matched_question) ∧
          sims[j]? = some m.similarity_score ∧ th ≤ m.similarity_score := by
  intro rows
  induction rows with
  | nil =>
    intro sims i m
    constructor
    · intro h; simp [mkMatches] at h
    · rintro ⟨j, _, hj, _⟩; simp at hj
  | cons r rs ih =>
    intro sims i m
    cases sims with
    | nil =>
      constructor
      · intro h; simp [mkMatches] at h
      · rintro ⟨j, _, _, hj, _⟩; simp at hj
    | cons s ss =>
      constructor
      · intro h
        simp only [mkMatches, List.mem_append] at h
        rcases h with h | h
        · by_cases hth : th ≤ s
          · rw [if_pos hth] at h
            simp only [List.mem_singleton] at h
            subst h
            exact ⟨0, by simp, by simp, by simp, hth⟩
          · rw [if_neg hth] at h
            simp at h
        · obtain ⟨j, hidx, hr, hs, hth⟩ := (ih ss (i + 1) m).mp h
          exact ⟨j + 1, by omega, by simpa using hr, by simpa using hs, hth⟩
      · rintro ⟨j, hidx, hr, hs, hth⟩
        cases j with
        | zero =>
          simp only [List.getElem?_cons_zero, Option.some_inj] at hr hs
          obtain ⟨rf, rq⟩ := r
          injection hr with hf hq
          simp only [mkMatches, List.mem_append]
          left
          rw [if_pos (by rw [hs]; exact hth)]
          simp only [List.mem_singleton]
          obtain ⟨midx, mfaq, msc, mq⟩ := m
          simp only at hf hq hs hidx
          simp [hidx, hf, hq, hs]
        | succ j' =>
          simp only [List.getElem?_cons_succ] at hr hs
          simp only [mkMatches, List.mem_append]
          right
          exact (ih ss (i + 1) m).mpr ⟨j', by omega, hr, hs, hth⟩

theorem mem_mkMatches_le (th : ℚ) :
    ∀ (rows : List (FAQ × String)) (sims : List ℚ) (i : Nat) (m : MatchResult),
      m ∈ mkMatches th i rows sims → i ≤ m.idx := by
  intro rows sims i m h
  obtain ⟨j, hidx, _⟩ := (mem_mkMatches th rows sims i m).mp h
  omega

theorem mkMatches_idx_lt (th : ℚ) :
    ∀ (rows : List (FAQ × String)) (sims : List ℚ) (i : Nat),
      (mkMatches th i rows sims).Pairwise (fun a b => a.idx < b.idx) := by
  intro rows
  induction rows with
  | nil => intro sims i; simp [mkMatches]
  | cons r rs ih =>
    intro sims i
    cases sims with
    | nil => simp [mkMatches]
    | cons s ss =>
      simp only [mkMatches]
      apply List.pairwise_append.mpr
      refine ⟨?_, ih ss (i + 1), ?_⟩
      · by_cases hth : th ≤ s
        · rw [if_pos hth]; simp
        · rw [if_neg hth]; simp
      · intro a ha b hb
        have hb' : i + 1 ≤ b.idx := mem_mkMatches_le th rs ss (i + 1) b hb
        by_cases hth : th ≤ s
        · rw [if_pos hth] at ha
          simp only [List.mem_singleton] at ha
          subst ha
          simpa using hb'
        · rw [if_neg hth] at ha
          simp at ha

/-! ## The characterization of `_get_all_matches` -/

theorem mem_getAllMatches (rows : List (FAQ × String)) (sims : List ℚ) (th : ℚ)
    (m : MatchResult) :
    m ∈ getAllMatches rows sims th ↔
      rows[m.idx]? = some (m.faq, m.matched_question) ∧
        sims[m.idx]? = some m.similarity_score ∧ th ≤ m.similarity_score := by
  unfold getAllMatches
  rw [mem_sortDesc, mem_mkMatches]
  constructor
  · rintro ⟨j, hidx, h⟩
    simp only [Nat.zero_add] at hidx
    exact hidx ▸ h
  · intro h
    exact ⟨m.idx, by omega, h⟩

theorem getAllMatches_ranked (rows : List (FAQ × String)) (sims : List ℚ) (th : ℚ) :
    (getAllMatches rows sims th).Pairwise rankedBefore :=
  sortDesc_ranked _ (mkMatches_idx_lt th rows sims 0)

theorem getAllMatches_wdesc (rows : List (FAQ × String)) (sims : List ℚ) (th : ℚ) :
    (getAllMatches rows sims th).Pairwise wdesc :=
  sortDesc_wdesc _

/-- C1: for every corpus and per-row similarity vector, the candidate list
computed by `_get_all_matches` (before entry-deduplication) contains exactly
the corpus rows whose similarity is ≥ the threshold — each as a result
carrying that row's FAQ, original question and score — and is ordered by
similarity descending with ties in original corpus-row order (stable sort). -/
theorem c1_candidates_exact_sorted_stable :
    ∀ (rows : List (FAQ × String)) (sims : List ℚ) (th : ℚ),
      (∀ m : MatchResult, m ∈ getAllMatches rows sims th ↔
        rows[m.idx]? = some (m.faq, m.matched_question) ∧
          sims[m.idx]? = some m.similarity_score ∧ th ≤ m.similarity_score) ∧
      (getAllMatches rows sims th).Pairwise rankedBefore :=
  fun rows sims th =>
    ⟨fun m => mem_getAllMatches rows sims th m, getAllMatches_ranked rows sims th⟩

/-- C3: a query that is empty, whitespace-only, or normalizes to the empty
string yields `None` from `match` and `(None, [])` from
`match_with_alternatives`, even if query vectorization would fail — no
exception escapes. -/
theorem c3_empty_query_no_result (P : TextPreprocessor) (rows : List (FAQ × String))
    (simsE : Except String (List ℚ)) (cfg : MatcherConfig) (q : String)
    (h : q.toList.all isSpaceB = true ∨ preprocess P q = "") :
    matchQuery P rows simsE cfg q = .ok none ∧
      matchWithAlternatives P rows simsE cfg q = .ok (none, []) := by
  unfold matchQuery matchWithAlternatives
  rcases h with h | h
  · rw [if_pos h, if_pos h]
    exact ⟨rfl, rfl⟩
  · by_cases hsp : q.toList.all isSpaceB = true
    · rw [if_pos hsp, if_pos hsp]
      exact ⟨rfl, rfl⟩
    · rw [if_neg hsp, if_neg hsp, if_pos h, if_pos h]
      exact ⟨rfl, rfl⟩

/-- C3 witness: the whitespace query `"   "` against an erroring similarity
computation still returns the empty result, not the error. -/
theorem c3_witness :
    matchQuery ⟨defaultPreCfg, fallbackStopWords, id⟩ []
        (.error "vectorization failed") defaultMatcherConfig "   " = .ok none ∧
      matchWithAlternatives ⟨defaultPreCfg, fallbackStopWords, id⟩ []
        (.error "vectorization failed") defaultMatcherConfig "   " = .ok (none, []) :=
  c3_empty_query_no_result _ _ _ _ _ (Or.inl (by decide))

/-- C10: `get_matches_by_category` returns exactly the threshold-passing rows
whose owning FAQ has the requested category, in the ranked (descending,
stable) order, with no deduplication by entry — witnessed by a concrete run
in which both returned results reference the same FAQ. -/
theorem c10_category_filter (P : TextPreprocessor) (rows : List (FAQ × String))
    (sims : List ℚ) (cfg : MatcherConfig) (q : String) (cat : String)
    (res : List MatchResult)
    (hq : ¬ (preprocess P q = ""))
    (hres : getMatchesByCategory P rows (.ok sims) cfg q cat = .ok res) :
    ((∀ m : MatchResult, m ∈ res ↔
        rows[m.idx]? = some (m.faq, m.matched_question) ∧
          sims[m.idx]? = some m.similarity_score ∧
          cfg.similarity_threshold ≤ m.similarity_score ∧ m.faq.category = cat) ∧
      res.Pairwise rankedBefore) ∧
    (∃ r2 : List MatchResult,
      getMatchesByCategory Pident demoRowsSame (.ok [1, mkRat 9 10]) defaultMatcherConfig
          "hello" "general" = .ok r2 ∧
        r2.length = 2 ∧ ∀ m ∈ r2, m.faq.id = "general_a") := by
  constructor
  · unfold getMatchesByCategory at hres
    rw [if_neg hq] at hres
    have hres2 : (Except.ok ((getAllMatches rows sims cfg.similarity_threshold).filter
        (fun m => decide (m.faq.category = cat))) : Except String (List MatchResult))
        = .ok res := hres
    injection hres2 with hres3
    subst hres3
    constructor
    · intro m
      rw [List.mem_filter, mem_getAllMatches]
      constructor
      · rintro ⟨⟨h1, h2, h3⟩, h4⟩
        exact ⟨h1, h2, h3, by simpa using h4⟩
      · rintro ⟨h1, h2, h3, h4⟩
        exact ⟨⟨h1, h2, h3⟩, by simpa using h4⟩
    · exact List.Pairwise.filter _ (getAllMatches_ranked rows sims cfg.similarity_threshold)
  · exact ⟨[⟨0, faqGenA, 1, "first question"⟩, ⟨1, faqGenA, mkRat 9 10, "first question again"⟩],
      by decide, by decide, by decide⟩

/-- C10 witness: the characterization applied to the concrete same-FAQ run. -/
theorem c10_witness :
    ((∀ m : MatchResult,
        m ∈ [(⟨0, faqGenA, 1, "first question"⟩ : MatchResult),
             ⟨1, faqGenA, mkRat 9 10, "first question again"⟩] ↔
          demoRowsSame[m.idx]? = some (m.faq, m.matched_question) ∧
            [(1 : ℚ), mkRat 9 10][m.idx]? = some m.similarity_score ∧
            defaultMatcherConfig.similarity_threshold ≤ m.similarity_score ∧
            m.faq.category = "general") ∧
      List.Pairwise rankedBefore
        [(⟨0, faqGenA, 1, "first question"⟩ : MatchResult),
         ⟨1, faqGenA, mkRat 9 10, "first question again"⟩]) ∧
    (∃ r2 : List MatchResult,
      getMatchesByCategory Pident demoRowsSame (.ok [1, mkRat 9 10]) defaultMatcherConfig
          "hello" "general" = .ok r2 ∧
        r2.length = 2 ∧ ∀ m ∈ r2, m.faq.id = "general_a") :=
  c10_category_filter Pident demoRowsSame [1, mkRat 9 10] defaultMatcherConfig "hello" "general"
    [⟨0, faqGenA, 1, "first question"⟩, ⟨1, faqGenA, mkRat 9 10, "first question again"⟩]
    (by decide) (by decide)

/-! ## Properties of the alternatives loop -/

theorem collectAlts_length (maxS : Nat) :
    ∀ (l : List MatchResult) (seen : List String) (n : Nat),
      (collectAlts maxS seen n l).length ≤ max 1 (maxS - n) := by
  intro l
  induction l with
  | nil => intro seen n; simp [collectAlts]
  | cons m ms ih =>
    intro seen n
    unfold collectAlts
    by_cases hseen : m.faq.id ∈ seen
    · rw [if_pos hseen]
      exact ih seen n
    · rw [if_neg hseen]
      by_cases hcap : maxS ≤ n + 1
      · rw [if_pos hcap]
        simp
      · rw [if_neg hcap]
        have := ih (m.faq.id :: seen) (n + 1)
        simp only [List.length_cons]
        omega

/-- Every collected alternative's FAQ id is new, and the collected element is
the first occurrence of its FAQ id in the walked list. -/
theorem collectAlts_first (maxS : Nat) :
    ∀ (l : List MatchResult) (seen : List String) (n : Nat) (m : MatchResult),
      m ∈ collectAlts maxS seen n l →
        m.faq.id ∉ seen ∧
          ∃ l₁ l₂, l = l₁ ++ m :: l₂ ∧ ∀ x ∈ l₁, x.faq.id ≠ m.faq.id := by
  intro l
  induction l with
  | nil => intro seen n m h; simp [collectAlts] at h
  | cons c cs ih =>
    intro seen n m h
    unfold collectAlts at h
    by_cases hseen : c.faq.id ∈ seen
    · rw [if_pos hseen] at h
      obtain ⟨hnot, l₁, l₂, rfl, hne⟩ := ih seen n m h
      refine ⟨hnot, c :: l₁, l₂, rfl, ?_⟩
      intro x hx
      rcases List.mem_cons.mp hx with rfl | hx'
      · intro heq
        rw [heq] at hseen
        exact hnot hseen
      · exact hne x hx'
    · rw [if_neg hseen] at h
      by_cases hcap : maxS ≤ n + 1
      · rw [if_pos hcap] at h
        simp only [List.mem_singleton] at h
        subst h
        exact ⟨hseen, [], cs, rfl, by simp⟩
      · rw [if_neg hcap] at h
        rcases List.mem_cons.mp h with rfl | h'
        · exact ⟨hseen, [], cs, rfl, by simp⟩
        · obtain ⟨hnot, l₁, l₂, rfl, hne⟩ := ih (c.faq.id :: seen) (n + 1) m h'
          have hmc : m.faq.id ≠ c.faq.id := by
            intro heq
            exact hnot (by simp [heq])
          refine ⟨fun hmem => hnot (by simp [hmem]), c :: l₁, l₂, rfl, ?_⟩
          intro x hx
          rcases List.mem_cons.mp hx with rfl | hx'
          · exact fun heq => hmc heq.symm
          · exact hne x hx'

/-- The collected alternatives have pairwise-distinct FAQ ids, none of them
already seen. -/
theorem collectAlts_nodup (maxS : Nat) :
    ∀ (l : List MatchResult) (seen : List String) (n : Nat),
      ((collectAlts maxS seen n l).map (fun m => m.faq.id)).Nodup ∧
        ∀ m ∈ collectAlts maxS seen n l, m.faq.id ∉ seen := by
  intro l
  induction l with
  | nil => intro seen n; simp [collectAlts]
  | cons c cs ih =>
    intro seen n
    unfold collectAlts
    by_cases hseen : c.faq.id ∈ seen
    · rw [if_pos hseen]
      exact ih seen n
    · rw [if_neg hseen]
      by_cases hcap : maxS ≤ n + 1
      · rw [if_pos hcap]
        constructor
        · simp
        · intro m hm
          simp only [List.mem_singleton] at hm
          subst hm
          exact hseen
      · rw [if_neg hcap]
        obtain ⟨hnd, hnotin⟩ := ih (c.faq.id :: seen) (n + 1)
        constructor
        · simp only [List.map_cons, List.nodup_cons]
          refine ⟨?_, hnd⟩
          intro hmem
          rcases List.mem_map.mp hmem with ⟨m, hm, heq⟩
          exact hnotin m hm (by simp [heq])
        · intro m hm
          rcases List.mem_cons.mp hm with rfl | hm'
          · exact hseen
          · exact fun hmem => hnotin m hm' (by simp [hmem])

/-- C2 (amended): the ranked result of `match_with_alternatives` never
contains two candidates for the same FAQ entry; each retained candidate is a
highest-scoring threshold-passing row of its entry; and the alternatives list
has at most `max (1, max_suggestions)` elements — which is `max_suggestions`
whenever `max_suggestions ≥ 1`, in particular for the default 3, but one
alternative is still returned when `max_suggestions = 0` because the cap is
checked only after appending. -/
theorem c2_dedup_and_cap (P : TextPreprocessor) (rows : List (FAQ × String))
    (sims : List ℚ) (cfg : MatcherConfig) (q : String)
    (bestO : Option MatchResult) (alts : List MatchResult)
    (h : matchWithAlternatives P rows (.ok sims) cfg q = .ok (bestO, alts)) :
    ((bestO.toList ++ alts).map (fun m => m.faq.id)).Nodup ∧
      alts.length ≤ max 1 cfg.max_suggestions ∧
      ∀ m ∈ bestO.toList ++ alts,
        m ∈ getAllMatches rows sims cfg.similarity_threshold ∧
          ∀ m' ∈ getAllMatches rows sims cfg.similarity_threshold,
            m'.faq.id = m.faq.id → m'.similarity_score ≤ m.similarity_score := by
  unfold matchWithAlternatives at h
  have htriv : (none : Option MatchResult) = bestO → ([] : List MatchResult) = alts →
      ((bestO.toList ++ alts).map (fun m => m.faq.id)).Nodup ∧
        alts.length ≤ max 1 cfg.max_suggestions ∧
        ∀ m ∈ bestO.toList ++ alts,
          m ∈ getAllMatches rows sims cfg.similarity_threshold ∧
            ∀ m' ∈ getAllMatches rows sims cfg.similarity_threshold,
              m'.faq.id = m.faq.id → m'.similarity_score ≤ m.similarity_score := by
    rintro rfl rfl
    simp
  by_cases hsp : q.toList.all isSpaceB = true
  · rw [if_pos hsp] at h
    injection h with h'
    injection h' with h1 h2
    exact htriv h1 h2
  · rw [if_neg hsp] at h
    by_cases hpre : preprocess P q = ""
    · rw [if_pos hpre] at h
      injection h with h'
      injection h' with h1 h2
      exact htriv h1 h2
    · rw [if_neg hpre] at h
      have hcore : (Except.ok (matchAltsCore rows sims cfg) :
          Except String (Option MatchResult × List MatchResult)) = .ok (bestO, alts) := h
      injection hcore with hcore'
      unfold matchAltsCore at hcore'
      rcases hall : getAllMatches rows sims cfg.similarity_threshold with _ | ⟨best, rest⟩
      · rw [hall] at hcore'
        injection hcore' with h1 h2
        subst h1
        subst h2
        simp
      · rw [hall] at hcore'
        injection hcore' with h1 h2
        have hwd : (best :: rest).Pairwise wdesc := by
          rw [← hall]; exact getAllMatches_wdesc rows sims cfg.similarity_threshold
        obtain ⟨hbwd, hrwd⟩ := List.pairwise_cons.mp hwd
        subst h1 h2
        refine ⟨?_, ?_, ?_⟩
        · simp only [Option.toList_some, List.map_cons, List.nodup_cons, List.singleton_append]
          obtain ⟨hnd, hnotin⟩ :=
            collectAlts_nodup cfg.max_suggestions rest [best.faq.id] 0
          refine ⟨?_, hnd⟩
          intro hmem
          rcases List.mem_map.mp hmem with ⟨m, hm, heq⟩
          exact hnotin m hm (by simp [heq])
        · have := collectAlts_length cfg.max_suggestions rest [best.faq.id] 0
          simpa using this
        · intro m hm
          simp only [Option.toList_some, List.singleton_append] at hm
          rcases List.mem_cons.mp hm with rfl | hmalts
          · refine ⟨by simp, ?_⟩
            intro m' hm' _
            rcases List.mem_cons.mp hm' with rfl | hm''
            · exact le_refl _
            · exact hbwd m' hm''
          · obtain ⟨hmnot, l₁, l₂, hrest, hne⟩ :=
              collectAlts_first cfg.max_suggestions rest [best.faq.id] 0 m hmalts
            have hmb : m.faq.id ≠ best.faq.id := fun heq => hmnot (by simp [heq])
            subst hrest
            refine ⟨by simp, ?_⟩
            intro m' hm' hid
            rcases List.mem_cons.mp hm' with rfl | hm''
            · exact absurd hid.symm hmb
            · rcases List.mem_append.mp hm'' with hm1 | hm2
              · exact absurd hid (hne m' hm1)
              · rcases List.mem_cons.mp hm2 with rfl | hm3
                · exact le_refl _
                · have hsubl : (m :: l₂).Pairwise wdesc := by
                    apply List.Pairwise.sublist _ hwd
                    have : best :: (l₁ ++ m :: l₂) = (best :: l₁) ++ (m :: l₂) := by simp
                    rw [this]
                    exact (List.suffix_append (best :: l₁) (m :: l₂)).sublist
                  exact (List.pairwise_cons.mp hsubl).1 m' hm3

/-- C2 (counterexample): with `max_suggestions = 0` the alternatives list of
`match_with_alternatives` still contains one candidate — the source checks
`len(alternatives) >= max_suggestions` only after appending — so "at most
`max_suggestions` alternatives" fails as stated. -/
theorem c2_counterexample :
    ∃ (bestO : Option MatchResult) (alts : List MatchResult),
      matchWithAlternatives Pident demoRowsDistinct (.ok [1, 1]) cfgZeroSuggestions
          "hello" = .ok (bestO, alts) ∧
        cfgZeroSuggestions.max_suggestions < alts.length :=
  ⟨some ⟨0, faqGenA, 1, "first question"⟩, [⟨1, faqGenB, 1, "second question"⟩],
    by decide, by decide⟩

/-- C2 witness: the amended theorem applied to a concrete two-entry run under
the default configuration. -/
theorem c2_witness :
    (((some (⟨0, faqGenA, 1, "first question"⟩ : MatchResult)).toList ++
        ([⟨1, faqGenB, 1, "second question"⟩] : List MatchResult)).map
          (fun m => m.faq.id)).Nodup ∧
      [(⟨1, faqGenB, 1, "second question"⟩ : MatchResult)].length ≤
        max 1 defaultMatcherConfig.max_suggestions :=
  ⟨(c2_dedup_and_cap Pident demoRowsDistinct [1, 1] defaultMatcherConfig "hello"
      (some ⟨0, faqGenA, 1, "first question"⟩) [⟨1, faqGenB, 1, "second question"⟩]
      (by decide)).1,
   (c2_dedup_and_cap Pident demoRowsDistinct [1, 1] defaultMatcherConfig "hello"
      (some ⟨0, faqGenA, 1, "first question"⟩) [⟨1, faqGenB, 1, "second question"⟩]
      (by decide)).2.1⟩

/-! ## Threshold monotonicity -/

theorem mkMatches_filter {t1 t2 : ℚ} (hle : t1 ≤ t2) :
    ∀ (rows : List (FAQ × String)) (sims : List ℚ) (i : Nat),
      mkMatches t2 i rows sims =
        (mkMatches t1 i rows sims).filter
          (fun m => decide (t2 ≤ m.similarity_score)) := by
  intro rows
  induction rows with
  | nil => intro sims i; simp [mkMatches]
  | cons r rs ih =>
    intro sims i
    cases sims with
    | nil => simp [mkMatches]
    | cons s ss =>
      simp only [mkMatches, List.filter_append]
      by_cases h2 : t2 ≤ s
      · rw [if_pos h2, if_pos (le_trans hle h2)]
        simp only [List.filter_cons, decide_eq_true h2]
        rw [ih ss (i + 1)]
        simp
      · rw [if_neg h2]
        by_cases h1 : t1 ≤ s
        · rw [if_pos h1]
          simp only [List.filter_cons]
          rw [decide_eq_false h2]
          simp only [Bool.false_eq_true, if_false, List.filter_nil]
          rw [ih ss (i + 1)]
        · rw [if_neg h1]
          simp only [List.filter_nil, List.nil_append]
          exact ih ss (i + 1)

theorem filter_eq_nil_of_sorted {t2 : ℚ} :
    ∀ (l : List MatchResult), l.Pairwise wdesc →
      ∀ (y : MatchResult), (∀ z ∈ l, z.similarity_score ≤ y.similarity_score) →
        ¬ t2 ≤ y.similarity_score →
        l.filter (fun m => decide (t2 ≤ m.similarity_score)) = [] := by
  intro l _ y hle hny
  apply List.filter_eq_nil_iff.mpr
  intro z hz
  simp only [decide_eq_true_eq]
  intro ht2
  exact hny (le_trans ht2 (hle z hz))

theorem filter_insertDesc_out {t2 : ℚ} {x : MatchResult}
    (hx : ¬ t2 ≤ x.similarity_score) :
    ∀ (l : List MatchResult),
      (insertDesc x l).filter (fun m => decide (t2 ≤ m.similarity_score)) =
        l.filter (fun m => decide (t2 ≤ m.similarity_score)) := by
  intro l
  induction l with
  | nil => simp [insertDesc, decide_eq_false hx]
  | cons y ys ih =>
    unfold insertDesc
    by_cases hlt : x.similarity_score < y.similarity_score
    · rw [if_pos hlt]
      simp only [List.filter_cons]
      rw [ih]
    · rw [if_neg hlt]
      simp only [List.filter_cons]
      rw [decide_eq_false hx]
      simp

theorem filter_insertDesc_in {t2 : ℚ} {x : MatchResult}
    (hx : t2 ≤ x.similarity_score) :
    ∀ (l : List MatchResult), l.Pairwise wdesc →
      (insertDesc x l).filter (fun m => decide (t2 ≤ m.similarity_score)) =
        insertDesc x (l.filter (fun m => decide (t2 ≤ m.similarity_score))) := by
  intro l
  induction l with
  | nil => simp [insertDesc, decide_eq_true hx]
  | cons y ys ih =>
    intro hw
    obtain ⟨hy, hys⟩ := List.pairwise_cons.mp hw
    unfold insertDesc
    by_cases hlt : x.similarity_score < y.similarity_score
    · rw [if_pos hlt]
      have hpy : t2 ≤ y.similarity_score := le_trans hx (le_of_lt hlt)
      simp only [List.filter_cons, decide_eq_true hpy, if_true]
      rw [ih hys]
      unfold insertDesc
      rw [if_pos hlt]
    · rw [if_neg hlt]
      by_cases hpy : t2 ≤ y.similarity_score
      · simp only [List.filter_cons, decide_eq_true hx, decide_eq_true hpy, if_true]
        unfold insertDesc
        rw [if_neg hlt]
      · have hnil : (y :: ys).filter (fun m => decide (t2 ≤ m.similarity_score)) = [] :=
          filter_eq_nil_of_sorted (y :: ys) hw y
            (fun z hz => by
              rcases List.mem_cons.mp hz with rfl | hz'
              · exact le_refl _
              · exact hy z hz') hpy
        rw [List.filter_cons, decide_eq_true hx]
        simp only [if_true]
        rw [hnil]

theorem sortDesc_filter {t2 : ℚ} :
    ∀ (l : List MatchResult),
      sortDesc (l.filter (fun m => decide (t2 ≤ m.similarity_score))) =
        (sortDesc l).filter (fun m => decide (t2 ≤ m.similarity_score)) := by
  intro l
  induction l with
  | nil => rfl
  | cons x xs ih =>
    simp only [List.filter_cons]
    by_cases hx : t2 ≤ x.similarity_score
    · rw [decide_eq_true hx]
      simp only [if_true]
      show insertDesc x (sortDesc (xs.filter _)) = _
      rw [ih]
      exact (filter_insertDesc_in hx (sortDesc xs) (sortDesc_wdesc xs)).symm
    · rw [decide_eq_false hx]
      simp only [Bool.false_eq_true, if_false]
      rw [ih]
      exact (filter_insertDesc_out hx (sortDesc xs)).symm

theorem getAllMatches_filter {t1 t2 : ℚ} (hle : t1 ≤ t2)
    (rows : List (FAQ × String)) (sims : List ℚ) :
    getAllMatches rows sims t2 =
      (getAllMatches rows sims t1).filter
        (fun m => decide (t2 ≤ m.similarity_score)) := by
  unfold getAllMatches
  rw [mkMatches_filter hle rows sims 0]
  exact sortDesc_filter (mkMatches t1 0 rows sims)

theorem sorted_filter_prefix (t2 : ℚ) :
    ∀ (l : List MatchResult), l.Pairwise wdesc →
      ∃ t, l = l.filter (fun m => decide (t2 ≤ m.similarity_score)) ++ t := by
  intro l
  induction l with
  | nil => exact fun _ => ⟨[], rfl⟩
  | cons x xs ih =>
    intro hw
    obtain ⟨hx, hxs⟩ := List.pairwise_cons.mp hw
    by_cases hpx : t2 ≤ x.similarity_score
    · obtain ⟨t, ht⟩ := ih hxs
      refine ⟨t, ?_⟩
      simp only [List.filter_cons, decide_eq_true hpx, if_true, List.cons_append]
      rw [← ht]
    · refine ⟨x :: xs, ?_⟩
      rw [filter_eq_nil_of_sorted (x :: xs) hw x
        (fun z hz => by
          rcases List.mem_cons.mp hz with rfl | hz'
          · exact le_refl _
          · exact hx z hz') hpx]
      rfl

theorem collectAlts_prefix_mono (maxS : Nat) :
    ∀ (l₂ l₃ : List MatchResult) (seen : List String) (n : Nat),
      (collectAlts maxS seen n l₂).length ≤
        (collectAlts maxS seen n (l₂ ++ l₃)).length := by
  intro l₂
  induction l₂ with
  | nil => intro l₃ seen n; simp [collectAlts]
  | cons c cs ih =>
    intro l₃ seen n
    simp only [List.cons_append]
    unfold collectAlts
    by_cases hseen : c.faq.id ∈ seen
    · rw [if_pos hseen, if_pos hseen]
      exact ih l₃ seen n
    · rw [if_neg hseen, if_neg hseen]
      by_cases hcap : maxS ≤ n + 1
      · rw [if_pos hcap, if_pos hcap]
      · rw [if_neg hcap, if_neg hcap]
        simp only [List.length_cons]
        exact Nat.succ_le_succ (ih l₃ (c.faq.id :: seen) (n + 1))

theorem matchAltsCore_mono (rows : List (FAQ × String)) (sims : List ℚ)
    (maxS : Nat) (lc1 lc2 : ℚ) (mf1 mf2 : Nat) {t1 t2 : ℚ} (hle : t1 ≤ t2) :
    (matchAltsCore rows sims ⟨t2, maxS, lc2, mf2⟩).2.length ≤
      (matchAltsCore rows sims ⟨t1, maxS, lc1, mf1⟩).2.length := by
  have hfilt := getAllMatches_filter hle rows sims
  unfold matchAltsCore
  simp only
  rcases h2 : getAllMatches rows sims t2 with _ | ⟨b2, rest2⟩
  · simp
  · rcases h1 : getAllMatches rows sims t1 with _ | ⟨b1, rest1⟩
    · rw [h1] at hfilt
      simp only [List.filter_nil] at hfilt
      rw [hfilt] at h2
      cases h2
    · have hsorted : (b1 :: rest1).Pairwise wdesc := by
        rw [← h1]; exact getAllMatches_wdesc rows sims t1
      obtain ⟨hb1w, hrest1w⟩ := List.pairwise_cons.mp hsorted
      have hpb1 : t2 ≤ b1.similarity_score := by
        by_contra hnp
        have : (b1 :: rest1).filter (fun m => decide (t2 ≤ m.similarity_score)) = [] :=
          filter_eq_nil_of_sorted (b1 :: rest1) hsorted b1
            (fun z hz => by
              rcases List.mem_cons.mp hz with rfl | hz'
              · exact le_refl _
              · exact hb1w z hz') hnp
        rw [h1, this] at hfilt
        rw [hfilt] at h2
        cases h2
      have hbr : b2 = b1 ∧ rest2 = rest1.filter (fun m => decide (t2 ≤ m.similarity_score)) := by
        rw [h1] at hfilt
        simp only [List.filter_cons, decide_eq_true hpb1, if_true] at hfilt
        rw [hfilt] at h2
        injection h2 with hb hr
        exact ⟨hb.symm, hr.symm⟩
      obtain ⟨rfl, hrest⟩ := hbr
      obtain ⟨t, ht⟩ := sorted_filter_prefix t2 rest1 hrest1w
      show (collectAlts maxS [b2.faq.id] 0 rest2).length ≤
        (collectAlts maxS [b2.faq.id] 0 rest1).length
      rw [hrest]
      have hmono := collectAlts_prefix_mono maxS
        (rest1.filter (fun m => decide (t2 ≤ m.similarity_score))) t [b2.faq.id] 0
      rw [← ht] at hmono
      exact hmono

/-- C5: for the same corpus, similarity scores and query, raising the
similarity threshold never increases the number of alternatives returned by
`match_with_alternatives` (all other configuration equal). -/
theorem c5_threshold_monotonic (P : TextPreprocessor) (rows : List (FAQ × String))
    (sims : List ℚ) (q : String) (maxS : Nat) (lc1 lc2 : ℚ) (mf1 mf2 : Nat)
    (t1 t2 : ℚ) (hle : t1 ≤ t2)
    (b1 b2 : Option MatchResult) (a1 a2 : List MatchResult)
    (h2 : matchWithAlternatives P rows (.ok sims) ⟨t2, maxS, lc2, mf2⟩ q = .ok (b2, a2))
    (h1 : matchWithAlternatives P rows (.ok sims) ⟨t1, maxS, lc1, mf1⟩ q = .ok (b1, a1)) :
    a2.length ≤ a1.length := by
  unfold matchWithAlternatives at h1 h2
  by_cases hsp : q.toList.all isSpaceB = true
  · rw [if_pos hsp] at h2
    injection h2 with h2'
    injection h2' with hb2 ha2
    subst ha2
    simp
  · rw [if_neg hsp] at h1 h2
    by_cases hpre : preprocess P q = ""
    · rw [if_pos hpre] at h2
      injection h2 with h2'
      injection h2' with hb2 ha2
      subst ha2
      simp
    · rw [if_neg hpre] at h1 h2
      have h2c : (Except.ok (matchAltsCore rows sims ⟨t2, maxS, lc2, mf2⟩) :
          Except String (Option MatchResult × List MatchResult)) = .ok (b2, a2) := h2
      have h1c : (Except.ok (matchAltsCore rows sims ⟨t1, maxS, lc1, mf1⟩) :
          Except String (Option MatchResult × List MatchResult)) = .ok (b1, a1) := h1
      injection h2c with h2c'
      injection h1c with h1c'
      have hmono := matchAltsCore_mono rows sims maxS lc1 lc2 mf1 mf2 hle
      rw [h2c', h1c'] at hmono
      exact hmono

/-- C5 witness: thresholds 0 ≤ 1 on a concrete two-row run; the higher
threshold yields no alternatives, the lower one yields one. -/
theorem c5_witness :
    ([] : List MatchResult).length ≤
      [(⟨1, faqGenB, mkRat 2 5, "second question"⟩ : MatchResult)].length :=
  c5_threshold_monotonic Pident demoRowsDistinct [1, mkRat 2 5] "hello" 3
    (mkRat 1 2) (mkRat 1 2) 1000 1000 0 1 (by decide)
    (some ⟨0, faqGenA, 1, "first question"⟩)
    (some ⟨0, faqGenA, 1, "first question"⟩)
    [⟨1, faqGenB, mkRat 2 5, "second question"⟩] []
    (by decide) (by decide)

/-! ## Build-time failure and determinism -/

/-- C6: building over a catalog that yields zero corpus rows, or whose every
row normalizes to the empty string, fails with a `MatcherError` at
construction; no `Corpus` is produced. -/
theorem c6_empty_corpus_build_error (P : TextPreprocessor) (faqs : List FAQ) (maxF : Nat)
    (h : corpusRows faqs = [] ∨ ∀ r ∈ corpusRows faqs, preprocess P r.2 = "") :
    ∃ e, buildCorpus P faqs maxF = .error e := by
  rcases h with h | h
  · refine ⟨"No questions found in FAQ database", ?_⟩
    unfold buildCorpus
    rw [h]
    rfl
  · by_cases hrows : corpusRows faqs = []
    · refine ⟨"No questions found in FAQ database", ?_⟩
      unfold buildCorpus
      rw [hrows]
      rfl
    · refine ⟨"Failed to vectorize FAQ corpus: empty vocabulary", ?_⟩
      unfold buildCorpus
      have hne : ((corpusRows faqs).map (fun r => preprocess P r.2)).isEmpty = false := by
        rw [List.isEmpty_eq_false_iff_exists_mem]
        obtain ⟨r, hr⟩ := List.exists_mem_of_ne_nil _ hrows
        exact ⟨preprocess P r.2, List.mem_map.mpr ⟨r, hr, rfl⟩⟩
      have hvocab : fitVocabulary maxF ((corpusRows faqs).map (fun r => preprocess P r.2)) = [] := by
        unfold fitVocabulary
        have hg : (((corpusRows faqs).map (fun r => preprocess P r.2)).flatMap docGrams) = [] := by
          apply List.flatMap_eq_nil_iff.mpr
          intro q hq
          rcases List.mem_map.mp hq with ⟨r, hr, rfl⟩
          rw [h r hr]
          rfl
        rw [hg]
        simp
      simp only [hne, Bool.false_eq_true, if_false, hvocab, List.isEmpty_nil, if_true]

/-- C6 witness: a one-entry catalog whose question `"!!"` normalizes to the
empty string fails to build. -/
theorem c6_witness :
    ∃ e, buildCorpus Pident [faqBang] 1000 = .error e :=
  c6_empty_corpus_build_error Pident [faqBang] 1000 (Or.inr (by decide))

/-- C8: index construction is deterministic — two builds from the same
entries and configuration produce equal corpora (rows, preprocessed
questions and vocabulary), and matching the same query against both (with
the similarity scores computed by any fixed function of the built corpus,
standing for the deterministic external vectorizer) yields identical results,
in particular the same best-match identity and exactly equal scores. -/
theorem c8_build_deterministic (P : TextPreprocessor) (faqs : List FAQ)
    (maxF : Nat) (cfg : MatcherConfig) (q : String)
    (simOf : Corpus → List ℚ) (c1 c2 : Corpus)
    (h1 : buildCorpus P faqs maxF = .ok c1) (h2 : buildCorpus P faqs maxF = .ok c2) :
    c1 = c2 ∧ c1.vocabulary = c2.vocabulary ∧
      matchQuery P c1.rows (.ok (simOf c1)) cfg q = matchQuery P c2.rows (.ok (simOf c2)) cfg q ∧
      matchWithAlternatives P c1.rows (.ok (simOf c1)) cfg q =
        matchWithAlternatives P c2.rows (.ok (simOf c2)) cfg q := by
  have hc : c1 = c2 := by
    rw [h1] at h2
    injection h2 with h'
  subst hc
  exact ⟨rfl, rfl, rfl, rfl⟩

/-- C8 witness: two builds of the one-entry `faqHello` catalog agree. -/
theorem c8_witness :
    sampleCorpus = sampleCorpus ∧ sampleCorpus.vocabulary = sampleCorpus.vocabulary ∧
      matchQuery Pident sampleCorpus.rows (.ok [1]) defaultMatcherConfig "hello" =
        matchQuery Pident sampleCorpus.rows (.ok [1]) defaultMatcherConfig "hello" ∧
      matchWithAlternatives Pident sampleCorpus.rows (.ok [1]) defaultMatcherConfig "hello" =
        matchWithAlternatives Pident sampleCorpus.rows (.ok [1]) defaultMatcherConfig "hello" :=
  c8_build_deterministic Pident [faqHello] 1000 defaultMatcherConfig "hello"
    (fun _ => [1]) sampleCorpus sampleCorpus (by decide) (by decide)

/-! ## Pipeline failure recovery -/

theorem runStep_fst (s : PipelineStep) (t : String) (errs : List (String × String)) :
    (runStep (t, errs) s).1 = if s.enabled then recoverStep s t else t := by
  unfold runStep recoverStep
  by_cases he : s.enabled
  · rw [if_pos he, if_pos he]
    cases s.f t <;> rfl
  · rw [if_neg he, if_neg he]

theorem foldl_runStep_fst :
    ∀ (steps : List PipelineStep) (t : String) (e1 e2 : List (String × String)),
      (steps.foldl runStep (t, e1)).1 = (steps.foldl runStep (t, e2)).1 := by
  intro steps
  induction steps with
  | nil => intro t e1 e2; rfl
  | cons s ss ih =>
    intro t e1 e2
    simp only [List.foldl_cons]
    unfold runStep
    by_cases he : s.enabled
    · rw [if_pos he, if_pos he]
      cases s.f t <;> exact ih _ _ _
    · rw [if_neg he, if_neg he]
      exact ih t e1 e2

theorem foldl_runStep_snd_mono :
    ∀ (steps : List PipelineStep) (acc : String × List (String × String))
      (x : String × String), x ∈ acc.2 → x ∈ (steps.foldl runStep acc).2 := by
  intro steps
  induction steps with
  | nil => intro acc x h; exact h
  | cons s ss ih =>
    intro acc x h
    simp only [List.foldl_cons]
    apply ih
    unfold runStep
    by_cases he : s.enabled
    · rw [if_pos he]
      cases hf : s.f acc.1 with
      | ok r => exact h
      | error e => exact List.mem_append.mpr (Or.inl h)
    · rw [if_neg he]
      exact h

theorem runStep_error (s : PipelineStep) (acc : String × List (String × String)) (e : String)
    (hen : s.enabled = true) (hf : s.f acc.1 = .error e) :
    runStep acc s = (acc.1, acc.2 ++ [(s.name, e)]) := by
  unfold runStep
  rw [if_pos hen, hf]

/-- C7: `process` always returns a string for any input and step list: its
text result equals the plain fold of the enabled steps with per-step recovery
(a failing step leaves the text unchanged), and a failing enabled step has
its failure recorded while the pipeline continues as if that step's effect
were skipped — no step's exception reaches the caller. -/
theorem c7_pipeline_recovers :
    (∀ (steps : List PipelineStep) (text : String),
      (process steps text).1 =
        (steps.filter (fun s => s.enabled)).foldl (fun t s => recoverStep s t) text) ∧
    (∀ (pre : List PipelineStep) (s : PipelineStep) (post : List PipelineStep)
        (text : String) (e : String),
      s.enabled = true → s.f (process pre text).1 = .error e →
        (s.name, e) ∈ (process (pre ++ s :: post) text).2 ∧
          (process (pre ++ s :: post) text).1 = (process (pre ++ post) text).1) := by
  constructor
  · have key : ∀ (steps : List PipelineStep) (text : String)
        (errs : List (String × String)),
        (steps.foldl runStep (text, errs)).1 =
          (steps.filter (fun s => s.enabled)).foldl (fun t s => recoverStep s t) text := by
      intro steps
      induction steps with
      | nil => intro text errs; rfl
      | cons s ss ih =>
        intro text errs
        simp only [List.foldl_cons, List.filter_cons]
        by_cases he : s.enabled
        · rw [he]
          simp only [if_true, List.foldl_cons]
          have hfst : (runStep (text, errs) s) =
              ((runStep (text, errs) s).1, (runStep (text, errs) s).2) := rfl
          rw [hfst, ih, runStep_fst, if_pos he]
        · have he' : s.enabled = false := by simpa using he
          rw [he']
          simp only [Bool.false_eq_true, if_false]
          have : runStep (text, errs) s = (text, errs) := by
            unfold runStep
            rw [if_neg he]
          rw [this, ih]
    intro steps text
    exact key steps text []
  · intro pre s post text e hen hf
    have hstep : runStep (pre.foldl runStep (text, [])) s =
        ((pre.foldl runStep (text, [])).1,
         (pre.foldl runStep (text, [])).2 ++ [(s.name, e)]) :=
      runStep_error s (pre.foldl runStep (text, [])) e hen hf
    constructor
    · show (s.name, e) ∈ ((pre ++ s :: post).foldl runStep (text, [])).2
      rw [List.foldl_append]
      simp only [List.foldl_cons]
      rw [hstep]
      apply foldl_runStep_snd_mono
      simp
    · show ((pre ++ s :: post).foldl runStep (text, [])).1 =
        ((pre ++ post).foldl runStep (text, [])).1
      rw [List.foldl_append, List.foldl_append]
      simp only [List.foldl_cons]
      rw [hstep]
      exact foldl_runStep_fst post _ _ _

/-- C7 witness: a concrete failing step is recorded and the pipeline
continues with the unchanged text. -/
theorem c7_witness :
    ("boom", "E") ∈ (process ([] ++ boomStep :: [identStep]) "hi").2 ∧
      (process ([] ++ boomStep :: [identStep]) "hi").1 =
        (process ([] ++ [identStep]) "hi").1 :=
  c7_pipeline_recovers.2 [] boomStep [identStep] "hi" "E" rfl rfl
